import Mathlib

/-!
Verification of the Connect-4 MCTS / Q-learning repository.

The game-state interface (`ConnectState`) is an external collaborator of the
repository (the `connect4` package is not part of the sources); it is modelled
here from the specification's boundary contract (spec §6).  Everything else is
a shallow embedding of the repository's own Python sources:
`groups/Group A/policy.py`, `groups/Group B/policy.py`,
`groups/Group C/policy.py` and `train.py`.
-/

set_option maxHeartbeats 1000000

/-- Modelled from the spec: the external GameState board, a fixed 6x7 grid of
cell values in \x7b-1, 0, 1\x7d (spec §3, §6). Row 0 is the top row; a piece
dropped in a column lands on the bottom-most empty row. -/
abbrev Board := Fin 6 → Fin 7 → ℤ

/-- Modelled from the spec: the bottom-most empty row of a column, i.e. where a
piece dropped in that column lands; `none` when the column is full (spec §6:
`transition` fails with an illegal-move condition if the column is full). -/
def colFreeRow (b : Board) (c : Fin 7) : Option (Fin 6) :=
  (List.finRange 6).reverse.find? (fun r => b r c = 0)

/-- Modelled from the spec: `get_free_cols` returns the ordered ascending
sequence of legal column indices of the current board (spec §6). -/
def boardFreeCols (b : Board) : List ℕ :=
  ((List.finRange 7).filter (fun c => (colFreeRow b c).isSome)).map Fin.val

/-- Modelled from the spec: the external GameState, an immutable board plus
whose turn it is (spec §3: `player` alternates after each transition). -/
structure ConnectState where
  board : Board
  player : ℤ

def ConnectState.freeCols (s : ConnectState) : List ℕ := boardFreeCols s.board

/-- Modelled from the spec: pure transition; applying a move to a full column
fails, otherwise the move is applied and the turn flips (spec §3, §6). -/
def ConnectState.transition (s : ConnectState) (a : ℕ) : Option ConnectState :=
  if h : a < 7 then
    match colFreeRow s.board ⟨a, h⟩ with
    | some r =>
        some ⟨fun r0 c0 => if r0 = r ∧ c0 = ⟨a, h⟩ then s.player else s.board r0 c0,
              -s.player⟩
    | none => none
  else none

/-- Total wrapper around `ConnectState.transition` used at call sites where the
repository does not catch the illegal-move failure (those calls always pass a
free column, so the `none` branch is unreachable there). -/
def transD (s : ConnectState) (a : ℕ) : ConnectState := (s.transition a).getD s

/-- Modelled from the spec: whether `p` has four aligned pieces on the board
(horizontal, vertical or either diagonal). -/
def hasLine (b : Board) (p : ℤ) : Bool :=
  decide (∃ r : Fin 6, ∃ c : Fin 4, ∀ k : Fin 4,
    b r ⟨c.1 + k.1, by omega⟩ = p) ||
  decide (∃ r : Fin 3, ∃ c : Fin 7, ∀ k : Fin 4,
    b ⟨r.1 + k.1, by omega⟩ c = p) ||
  decide (∃ r : Fin 3, ∃ c : Fin 4, ∀ k : Fin 4,
    b ⟨r.1 + k.1, by omega⟩ ⟨c.1 + k.1, by omega⟩ = p) ||
  decide (∃ r : Fin 3, ∃ c : Fin 4, ∀ k : Fin 4,
    b ⟨r.1 + k.1, by omega⟩ ⟨c.1 + 3 - k.1, by omega⟩ = p)

/-- Modelled from the spec: `get_winner` returns the winning player value, or 0
for a draw or an ongoing game (spec §6). -/
def ConnectState.winner (s : ConnectState) : ℤ :=
  if hasLine s.board (-1) then -1 else if hasLine s.board 1 then 1 else 0

/-- Modelled from the spec: `is_final` — someone has won, or the board is full
(spec §6, §8: a full board with no four-in-a-row is a terminal draw). -/
def ConnectState.isFinal (s : ConnectState) : Bool :=
  (s.winner != 0) || s.freeCols.isEmpty

/-- Number of cells of the board holding value `v` (models `np.sum(s == v)`). -/
def countVal (b : Board) (v : ℤ) : ℕ :=
  (Finset.univ.filter (fun rc : Fin 6 × Fin 7 => b rc.1 rc.2 = v)).card

/-- Acting-player determination from piece-count parity, as at the top of every
policy `act`: equal counts of -1 and 1 pieces means -1 moves, else 1. -/
def actingPlayer (b : Board) : ℤ := if countVal b (-1) = countVal b 1 then -1 else 1

/-- The empty board. -/
def emptyBoard : Board := fun _ _ => 0

/-- Models Python string join with a comma separator, as used by
`",".join(map(str, flat))` in both `train.py` and `groups/Group C/policy.py`. -/
def joinComma : List String → String
  | [] => ""
  | [x] => x
  | x :: y :: xs => x ++ "," ++ joinComma (y :: xs)

/-- Row-major flattening of the board, modelling `tablero.flatten()`. -/
def boardRows (b : Board) : List (List ℤ) :=
  (List.finRange 6).map (fun r => (List.finRange 7).map (fun c => b r c))

def flattenBoard (b : Board) : List ℤ := (boardRows b).flatten

/-- `codificar_estado` from `train.py`: the canonical state string
`"\x7bjugador\x7d:" + ",".join(map(str, flat))`. -/
def codificarEstado (b : Board) (j : ℤ) : String :=
  toString j ++ ":" ++ joinComma ((flattenBoard b).map toString)

/-- `crear_clave_estado_accion` from `train.py`: the state string followed by
`"|"` and the action. -/
def crearClaveEstadoAccion (b : Board) (j : ℤ) (a : ℕ) : String :=
  codificarEstado b j ++ "|" ++ toString a

/-- `codificar_estado_accion` from `groups/Group C/policy.py`, built the same
way from the flattened board. -/
def codificarEstadoAccion (b : Board) (j : ℤ) (a : ℕ) : String :=
  (toString j ++ ":" ++ joinComma ((flattenBoard b).map toString)) ++ "|" ++ toString a

/-- Character-level version of `joinComma` used to reason about the key. -/
def joinCD : List (List Char) → List Char
  | [] => []
  | [x] => x
  | x :: y :: xs => x ++ ',' :: joinCD (y :: xs)

def cellTokOk (t : List Char) : Prop := t = ['-', '1'] ∨ t = ['0'] ∨ t = ['1']

/-- The mutable state of `AgenteQ` in `train.py`: `Q`, `N` and
`visitas_estado` are `defaultdict`s (absent key means 0), modelled as total
functions; `gamma` and `alpha` are the fixed hyperparameters. -/
structure AgenteQ where
  Q : String → ℚ
  N : String → ℕ
  visitasEstado : String → ℕ
  gamma : ℚ
  alpha : ℚ

/-- `AgenteQ.obtener_q`. -/
def obtenerQ (ag : AgenteQ) (s : ConnectState) (a : ℕ) : ℚ :=
  ag.Q (crearClaveEstadoAccion s.board s.player a)

/-- `AgenteQ.establecer_q`. -/
def establecerQ (ag : AgenteQ) (s : ConnectState) (a : ℕ) (v : ℚ) : AgenteQ :=
  { ag with Q := fun k => if k = crearClaveEstadoAccion s.board s.player a then v else ag.Q k }

/-- The body of one iteration of `Entrenador.actualizar_q_values`: skip keys
already in `visitados`, otherwise apply the Monte-Carlo update and bump both
visit counters. -/
def actualizarPaso (ag : AgenteQ) (vis : List String) (s : ConnectState) (a : ℕ)
    (ret : ℚ) : AgenteQ × List String :=
  let clave := crearClaveEstadoAccion s.board s.player a
  if clave ∈ vis then (ag, vis)
  else
    let qViejo := obtenerQ ag s a
    let qNuevo := qViejo + ag.alpha * (ret - qViejo)
    let ag1 := establecerQ ag s a qNuevo
    let ag2 : AgenteQ :=
      { ag1 with
        N := fun k => if k = clave then ag1.N k + 1 else ag1.N k
        visitasEstado := fun k =>
          if k = codificarEstado s.board s.player then ag1.visitasEstado k + 1
          else ag1.visitasEstado k }
    (ag2, clave :: vis)

/-- The backward loop of `Entrenador.actualizar_q_values`, processing the
reversed trajectory left to right; `retorno` is multiplied by `gamma` after
every iteration, visited or not, exactly as in the source. -/
def actualizarGo (ag : AgenteQ) (ret : ℚ) (vis : List String) :
    List (ConnectState × ℕ) → AgenteQ
  | [] => ag
  | (s, a) :: rest =>
      let p := actualizarPaso ag vis s a ret
      actualizarGo p.1 (ag.gamma * ret) p.2 rest

/-- `Entrenador.actualizar_q_values`: iterate `i` from `len(trayectoria)-1`
down to `0`, i.e. process the reversed trajectory. -/
def actualizarQValues (ag : AgenteQ) (tray : List (ConnectState × ℕ))
    (recompensa : ℚ) : AgenteQ :=
  actualizarGo ag recompensa [] tray.reverse

def keyAt (e : ConnectState × ℕ) : String :=
  crearClaveEstadoAccion e.1.board e.1.player e.2

def stateKeyAt (e : ConnectState × ℕ) : String :=
  codificarEstado e.1.board e.1.player

def agW : AgenteQ := ⟨fun _ => 0, fun _ => 0, fun _ => 0, 1/2, 1/10⟩

def trayW : List (ConnectState × ℕ) := [(⟨emptyBoard, -1⟩, 0)]

/-- One node of the MCTS tree shared by the three policies (`MCTS.__init__`):
a state snapshot, visit and win statistics, and the children as an association
list from action to child in insertion order (Python dict preserves it). -/
inductive GTree where
  | node (state : ConnectState) (visits : ℕ) (wins : ℚ) (children : List (ℕ × GTree))

def GTree.state : GTree → ConnectState
  | .node s _ _ _ => s

def GTree.visits : GTree → ℕ
  | .node _ v _ _ => v

def GTree.wins : GTree → ℚ
  | .node _ _ w _ => w

def GTree.children : GTree → List (ℕ × GTree)
  | .node _ _ _ cs => cs

/-- A fresh node: zero visits, zero wins, no children. -/
def mkNode (s : ConnectState) : GTree := .node s 0 0 []

def childKeys (t : GTree) : List ℕ := t.children.map Prod.fst

/-- `is_fully_expanded`: as many children as available actions; the available
actions of a node are `get_free_cols()` of its (immutable) state. -/
def fullyExpanded (t : GTree) : Bool := t.children.length == t.state.freeCols.length

/-- The untried actions of `expand`: available actions with no child yet, in
the available-actions order. -/
def untried (t : GTree) : List ℕ :=
  t.state.freeCols.filter (fun a => decide (a ∉ childKeys t))

/-- `expand`: create a child from the first untried action and register it
(insertion order: appended last); no-op when fully expanded. -/
def expandTree (t : GTree) : GTree :=
  match untried t with
  | [] => t
  | a :: _ => .node t.state t.visits t.wins
      (t.children ++ [(a, mkNode (transD t.state a))])

/-- Fetch the node reached from `t` by following child indices. -/
def getNode : GTree → List ℕ → Option GTree
  | t, [] => some t
  | t, i :: p =>
      match t.children[i]? with
      | some c => getNode c.2 p
      | none => none

/-- Replace the element at an index (identity when out of range). -/
def modAt {α : Type} : List α → ℕ → (α → α) → List α
  | [], _, _ => []
  | x :: xs, 0, f => f x :: xs
  | x :: xs, n + 1, f => x :: modAt xs n f

/-- Apply `f` to the node at the end of a child-index path. -/
def updateAt : GTree → List ℕ → (GTree → GTree) → GTree
  | t, [], f => f t
  | t, i :: p, f =>
      .node t.state t.visits t.wins
        (modAt t.children i (fun ac => (ac.1, updateAt ac.2 p f)))

/-- The reward credited to a node during backpropagation: the raw rollout
reward for the root (no parent) and for nodes whose parent has the acting
player to move, the inverted reward `1 - r` otherwise. -/
def creditFor (r : ℚ) (acting : ℤ) : Option ℤ → ℚ
  | none => r
  | some pl => if pl = acting then r else 1 - r

/-- The backpropagation loop of `act`: every node from the simulated node up to
the root gains one visit and the credit determined by its parent's turn; `pp`
is the player to move at the parent of the current subtree root (`none` at the
search root). -/
def backprop (r : ℚ) (acting : ℤ) : Option ℤ → List ℕ → GTree → GTree
  | pp, [], t => .node t.state (t.visits + 1) (t.wins + creditFor r acting pp) t.children
  | pp, i :: p, t =>
      .node t.state (t.visits + 1) (t.wins + creditFor r acting pp)
        (modAt t.children i (fun ac => (ac.1, backprop r acting (some t.state.player) p ac.2)))

/-- The selection loop of `act`: descend through `best_child` while the node is
non-terminal and fully expanded.  The Python loop is `while True`; the fuel 42
covers every reachable tree, whose depth is bounded by the 42 board cells. -/
def selectPath (pick : GTree → Option ℕ) : ℕ → GTree → List ℕ
  | 0, _ => []
  | fuel + 1, t =>
      if t.state.isFinal || !fullyExpanded t then []
      else
        match pick t with
        | none => []
        | some i =>
            match t.children[i]? with
            | none => []
            | some c => i :: selectPath pick fuel c.2

/-- One full selection, expansion, simulation, backpropagation pass of the
search loop in `act`, generic in the best-child chooser `pick` and the rollout
`sim` (which may thread a state `σ`, e.g. Group B's random source). -/
def runPass {σ : Type} (pick : GTree → Option ℕ) (sim : ConnectState → σ → ℚ × σ)
    (acting : ℤ) (ts : GTree × σ) : GTree × σ :=
  let sp := selectPath pick 42 ts.1
  let n := (getNode ts.1 sp).getD ts.1
  if !n.state.isFinal && !fullyExpanded n then
    let t1 := updateAt ts.1 sp expandTree
    let sp1 := sp ++ [n.children.length]
    let n1 := (getNode t1 sp1).getD t1
    let pr := sim n1.state ts.2
    (backprop pr.1 acting none sp1 t1, pr.2)
  else
    let pr := sim n.state ts.2
    (backprop pr.1 acting none sp ts.1, pr.2)

/-- The search loop: `for _ in range(num_simulations)`. -/
def runSearch {σ : Type} (pick : GTree → Option ℕ) (sim : ConnectState → σ → ℚ × σ)
    (acting : ℤ) : ℕ → GTree × σ → GTree × σ
  | 0, ts => ts
  | n + 1, ts => runSearch pick sim acting n (runPass pick sim acting ts)

def sumChildVisits (t : GTree) : ℕ := (t.children.map (fun ac => ac.2.visits)).sum

/-- The most-visited-child scan at the end of `act`: strict improvement over a
running maximum started at -1, so ties keep the first child in insertion
order; `none` exactly when there are no children. -/
def argmaxVisitsGo : List (ℕ × GTree) → Option ℕ → ℤ → Option ℕ
  | [], best, _ => best
  | ac :: rest, best, mv =>
      if mv < (ac.2.visits : ℤ) then argmaxVisitsGo rest (some ac.1) (ac.2.visits : ℤ)
      else argmaxVisitsGo rest best mv

def argmaxVisits (cs : List (ℕ × GTree)) : Option ℕ := argmaxVisitsGo cs none (-1)

/-- The `best_child` scan, generic in the score: return the first child with
zero visits as soon as it is seen, otherwise keep the first child strictly
improving on the running best score started at `init` (-999999 in the source). -/
def bestIdxGo {α : Type} [LinearOrder α] (score : ℕ × GTree → α) :
    List (ℕ × GTree) → ℕ → α → Option ℕ → Option ℕ
  | [], _, _, best => best
  | c :: rest, k, bs, best =>
      if c.2.visits = 0 then some k
      else if bs < score c then bestIdxGo score rest (k + 1) (score c) (some k)
      else bestIdxGo score rest (k + 1) bs best

def bestIdx {α : Type} [LinearOrder α] (score : ℕ × GTree → α) (init : α)
    (cs : List (ℕ × GTree)) : Option ℕ := bestIdxGo score cs 0 init none

/-- The UCB1 score of `best_child` in Groups A and B:
`win_rate + w * sqrt(ln(parent_visits) / child_visits)`. -/
noncomputable def ucbScore (w : ℝ) (parentVisits : ℕ) (c : GTree) : ℝ :=
  (c.wins : ℝ) / (c.visits : ℝ) +
    w * Real.sqrt (Real.log (parentVisits : ℝ) / (c.visits : ℝ))

/-- `best_child` of Groups A and B as an index chooser. -/
noncomputable def ucbPick (w : ℝ) (t : GTree) : Option ℕ :=
  bestIdx (fun ac => ucbScore w t.visits ac.2) (-999999 : ℝ) t.children

/-- `dict.get(clave, 0.0)` over the loaded Q table. -/
def qtLookup (qt : List (String × ℚ)) (k : String) : ℚ :=
  ((qt.find? (fun e => e.1 == k)).map Prod.snd).getD 0

/-- The blended score of Group C `mejor_hijo`:
`(1 - peso_q) * ucb + peso_q * q_val`, with `q_val` the table value rescaled to
[0, 1] when the table is non-empty and 0 otherwise. -/
noncomputable def cScore (exploracion : ℝ) (pesoQ : ℚ) (qt : List (String × ℚ))
    (t : GTree) (ac : ℕ × GTree) : ℝ :=
  let ucb := ucbScore exploracion t.visits ac.2
  let qval : ℚ :=
    if qt.length > 0 then
      (qtLookup qt (codificarEstadoAccion t.state.board t.state.player ac.1) + 1) / 2
    else 0
  (1 - (pesoQ : ℝ)) * ucb + (pesoQ : ℝ) * (qval : ℝ)

/-- `mejor_hijo` of Group C as an index chooser. -/
noncomputable def cPick (exploracion : ℝ) (pesoQ : ℚ) (qt : List (String × ℚ))
    (t : GTree) : Option ℕ :=
  bestIdx (cScore exploracion pesoQ qt t) (-999999 : ℝ) t.children

/-- Outcome scoring shared by all rollouts: 1 if the reached state's winner is
the perspective player, 1/2 on winner 0 (draw or still ongoing), 0 otherwise. -/
def scoreOf (p : ℤ) (s : ConnectState) : ℚ :=
  if s.winner = p then 1 else if s.winner = 0 then 1/2 else 0

/-- First minimizer of the distance to the center column, modelling
`min(available_actions, key=lambda x, abs(x - 3))` (Python `min` keeps the
first element attaining the minimum). -/
def argminCenterGo : List ℕ → ℕ → ℕ → ℕ
  | [], best, _ => best
  | c :: rest, best, bd =>
      if ((c : ℤ) - 3).natAbs < bd then argminCenterGo rest c ((c : ℤ) - 3).natAbs
      else argminCenterGo rest best bd

def argminCenter : List ℕ → ℕ
  | [] => 0
  | c :: rest => argminCenterGo rest c ((c : ℤ) - 3).natAbs

/-- `_select_heuristic_action` (Group A) / `elegir_con_heuristica` (Group C):
win now if possible, else block the opponent's immediate win, else take the
center column, else the column closest to the center. -/
def elegirConHeuristica (s : ConnectState) (cols : List ℕ) : ℕ :=
  match cols.find? (fun a => (transD s a).winner == s.player) with
  | some a => a
  | none =>
      match cols.find? (fun a =>
          (transD ⟨s.board, -s.player⟩ a).winner == -s.player) with
      | some a => a
      | none => if 3 ∈ cols then 3 else argminCenter cols

/-- `_select_fast_action` (Group A) / `elegir_rapido` (Group C): center column
if free, else the first column in the central band 2..4, else the first free
column (the unused `estado` parameter of the source is dropped). -/
def elegirRapido (cols : List ℕ) : ℕ :=
  if 3 ∈ cols then 3
  else
    match cols.filter (fun c => decide (2 ≤ c ∧ c ≤ 4)) with
    | c :: _ => c
    | [] => cols.headD 0

/-- The rollout move chooser selected by the heuristics toggle. -/
def chooserOf (heur : Bool) : ConnectState → List ℕ → ℕ :=
  fun s cols => if heur then elegirConHeuristica s cols else elegirRapido cols

/-- The rollout loop of `_simulate` (Group A) / `simular` (Group C): play
chosen moves until the state is terminal, no column is free, the depth budget
runs out, or a transition fails (the `try/except` around `transition`), then
score the reached state for the perspective player. -/
def simLoop (choose : ConnectState → List ℕ → ℕ) (p : ℤ) : ℕ → ConnectState → ℚ
  | 0, s => scoreOf p s
  | fuel + 1, s =>
      if s.isFinal then scoreOf p s
      else
        match s.freeCols with
        | [] => scoreOf p s
        | _ :: _ =>
            match s.transition (choose s s.freeCols) with
            | none => scoreOf p s
            | some s2 => simLoop choose p fuel s2

/-- The state actually reached by the rollout loop, with the same four stopping
conditions; used to state that `_simulate` scores the reached state. -/
def rolloutState (choose : ConnectState → List ℕ → ℕ) : ℕ → ConnectState → ConnectState
  | 0, s => s
  | fuel + 1, s =>
      if s.isFinal then s
      else
        match s.freeCols with
        | [] => s
        | _ :: _ =>
            match s.transition (choose s s.freeCols) with
            | none => s
            | some s2 => rolloutState choose fuel s2

/-- `MCTS._simulate` of Group A (configurable depth and heuristics toggle). -/
def simulateA (depth : ℕ) (heur : Bool) (p : ℤ) (s : ConnectState) : ℚ :=
  simLoop (chooserOf heur) p depth s

/-- `MCTS.simular` of Group C, line for line the same loop as Group A's. -/
def simularC (profundidad : ℕ) (heur : Bool) (p : ℤ) (s : ConnectState) : ℚ :=
  simLoop (chooserOf heur) p profundidad s

/-- `MCTS._simulate` of Group B: uniform-random rollout, modelled by drawing
the next index from the stream `rng` (counter `k`), with the fixed 42-move
budget; the value is the reward together with the advanced counter. -/
def simLoopR (rng : ℕ → ℕ) (p : ℤ) : ℕ → ConnectState → ℕ → ℚ × ℕ
  | 0, s, k => (scoreOf p s, k)
  | fuel + 1, s, k =>
      if s.isFinal then (scoreOf p s, k)
      else
        match s.freeCols with
        | [] => (scoreOf p s, k)
        | _ :: _ =>
            match s.transition (s.freeCols.getD (rng k % s.freeCols.length) 0) with
            | none => (scoreOf p s, k + 1)
            | some s2 => simLoopR rng p fuel s2 (k + 1)

/-- `Aha._check_immediate_moves` (Group A): first free column that wins now,
else first free column whose play by the opponent would win for the opponent. -/
def checkImmediateMoves (s : ConnectState) : Option ℕ :=
  match s.freeCols.find? (fun a => (transD s a).winner == s.player) with
  | some a => some a
  | none =>
      s.freeCols.find? (fun a =>
        (transD ⟨s.board, -s.player⟩ a).winner == -s.player)

/-- `LaMejorPoliticaConQvalues.verificar_inmediato` (Group C), the same two
scans as Group A's `_check_immediate_moves`. -/
def verificarInmediato (s : ConnectState) : Option ℕ :=
  match s.freeCols.find? (fun a => (transD s a).winner == s.player) with
  | some a => some a
  | none =>
      s.freeCols.find? (fun a =>
        (transD ⟨s.board, -s.player⟩ a).winner == -s.player)

/-- `elegir_con_qtable` (Group C): best table value over the free columns,
starting from the first column with running best `-inf` (modelled by `none`),
strict improvement so ties keep the first column. -/
def elegirConQtableGo (qt : List (String × ℚ)) (s : ConnectState) :
    List ℕ → ℕ → Option ℚ → ℕ
  | [], best, _ => best
  | c :: rest, best, bq =>
      let q := qtLookup qt (codificarEstadoAccion s.board s.player c)
      match bq with
      | none => elegirConQtableGo qt s rest c (some q)
      | some q0 =>
          if q0 < q then elegirConQtableGo qt s rest c (some q)
          else elegirConQtableGo qt s rest best (some q0)

def elegirConQtable (qt : List (String × ℚ)) (s : ConnectState) : ℕ :=
  elegirConQtableGo qt s s.freeCols (s.freeCols.headD 0) none

/-- The configuration of `Aha.__init__` (Group A). -/
structure AhaCfg where
  numSimulations : ℕ
  explorationWeight : ℝ
  rolloutDepth : ℕ
  heuristicsEnabled : Bool

/-- The tree built by the search loop of `Aha.act`. -/
noncomputable def ahaSearchTree (cfg : AhaCfg) (st : ConnectState) (p : ℤ) : GTree :=
  (runSearch (ucbPick cfg.explorationWeight)
    (fun s (_ : Unit) => (simulateA cfg.rolloutDepth cfg.heuristicsEnabled p s, ()))
    p cfg.numSimulations (mkNode st, ())).1

/-- `Aha.act` (Group A): parity player, immediate-move short-circuit, search,
most-visited root child, first-free-column fallback. -/
noncomputable def ahaAct (cfg : AhaCfg) (b : Board) : ℕ :=
  let p := actingPlayer b
  let st : ConnectState := ⟨b, p⟩
  match checkImmediateMoves st with
  | some c => c
  | none =>
      let t := ahaSearchTree cfg st p
      match argmaxVisits t.children with
      | some a => a
      | none => st.freeCols.headD 0

/-- The configuration of `LaMejorPoliticaConQvalues.__init__` (Group C),
together with the table loaded at mount time. -/
structure CCfg where
  simulaciones : ℕ
  exploracion : ℝ
  profundidad : ℕ
  heuristicas : Bool
  usarQtable : Bool
  pesoQ : ℚ
  qtable : List (String × ℚ)

/-- The tree built by the search loop of `LaMejorPoliticaConQvalues.act`. -/
noncomputable def cSearchTree (cfg : CCfg) (st : ConnectState) (p : ℤ) : GTree :=
  (runSearch (cPick cfg.exploracion cfg.pesoQ cfg.qtable)
    (fun s (_ : Unit) => (simularC cfg.profundidad cfg.heuristicas p s, ()))
    p cfg.simulaciones (mkNode st, ())).1

/-- `LaMejorPoliticaConQvalues.act` (Group C): parity player, immediate-move
short-circuit, pure-table bypass when `usar_qtable` and `peso_q >= 0.99` and
the table is non-empty, otherwise search and most-visited child. -/
noncomputable def cAct (cfg : CCfg) (b : Board) : ℕ :=
  let p := actingPlayer b
  let st : ConnectState := ⟨b, p⟩
  match verificarInmediato st with
  | some c => c
  | none =>
      if cfg.usarQtable ∧ (99 : ℚ)/100 ≤ cfg.pesoQ ∧ cfg.qtable ≠ [] then
        elegirConQtable cfg.qtable st
      else
        let t := cSearchTree cfg st p
        match argmaxVisits t.children with
        | some a => a
        | none => st.freeCols.headD 0

/-- The tree built by the search loop of `Hello.act` (Group B), whose rollout
consumes the random stream `rng`. -/
noncomputable def helloSearchTree (rng : ℕ → ℕ) (st : ConnectState) (p : ℤ)
    (B : ℕ) : GTree :=
  (runSearch (ucbPick (1.414 : ℝ)) (fun s k => simLoopR rng p 42 s k)
    p B (mkNode st, 0)).1

/-- The body of `Hello.act` (Group B) with the simulation budget as a
parameter: parity player, then the budget of simulations directly (no
immediate-move check, no table), most-visited child, first-free fallback. -/
noncomputable def helloActB (rng : ℕ → ℕ) (b : Board) (B : ℕ) : ℕ :=
  let p := actingPlayer b
  let st : ConnectState := ⟨b, p⟩
  let t := helloSearchTree rng st p B
  match argmaxVisits t.children with
  | some a => a
  | none => st.freeCols.headD 0

/-- `Hello.act` (Group B): the budget is the fixed `self.num_simulations =
2000` set in `Hello.__init__`. -/
noncomputable def helloAct (rng : ℕ → ℕ) (b : Board) : ℕ := helloActB rng b 2000

/-- The player to move at the parent of the node reached by the path: `pp` for
the empty path (the root), otherwise the player of the next-to-last node. -/
def parentPlayerOf : GTree → Option ℤ → List ℕ → Option ℤ
  | _, pp, [] => pp
  | t, _, i :: q =>
      match t.children[i]? with
      | some c => parentPlayerOf c.2 (some t.state.player) q
      | none => none

def sW : ConnectState := ⟨emptyBoard, -1⟩

def tW : GTree := .node sW 1 0 [(0, .node (transD sW 0) 1 (1/2) [])]

/-- Well-formedness of every tree the search builds: non-negative win score,
children registered under distinct legal actions of the node's state, and
well-formed subtrees. -/
inductive WF : GTree → Prop where
  | mk : ∀ (s : ConnectState) (v : ℕ) (w : ℚ) (cs : List (ℕ × GTree)),
      0 ≤ w →
      (cs.map Prod.fst).Nodup →
      (∀ a ∈ cs.map Prod.fst, a ∈ s.freeCols) →
      (∀ ac ∈ cs, WF ac.2) →
      WF (.node s v w cs)

def ahaCfgW : AhaCfg := ⟨1, 1, 1, true⟩

def tW4 : GTree := .node sW 1 0 [(0, mkNode (transD sW 0))]

def bFullCol : Board := fun r c =>
  if c = 0 then (if r.1 = 0 ∨ r.1 = 1 ∨ r.1 = 4 ∨ r.1 = 5 then -1 else 1) else 0

def sFull : ConnectState := ⟨bFullCol, -1⟩

def bWin : Board := fun r c =>
  if c = 0 ∧ 3 ≤ r.1 then -1
  else if r.1 = 5 ∧ (c = 1 ∨ c = 2 ∨ c = 3) then 1 else 0

def cCfgW : CCfg := ⟨1, 1, 1, true, true, 3/10, []⟩

theorem freeCols_sorted (b : Board) : (boardFreeCols b).Sorted (· < ·) := by
  have h : ((List.finRange 7).filter (fun c => (colFreeRow b c).isSome)).Sorted (· < ·) := by
    apply List.Pairwise.sublist (List.filter_sublist _)
    have := List.pairwise_lt_finRange 7
    exact this
  have h2 := List.Pairwise.map (f := Fin.val) (R := (· < ·)) (S := (· < ·))
    (fun a b hab => hab) h
  exact h2

theorem freeCols_nodup (b : Board) : (boardFreeCols b).Nodup :=
  (freeCols_sorted b).nodup

theorem mem_freeCols_lt (b : Board) (a : ℕ) (ha : a ∈ boardFreeCols b) : a < 7 := by
  rcases List.mem_map.1 ha with ⟨c, _, rfl⟩
  exact c.isLt

theorem transition_isSome_of_mem_freeCols (s : ConnectState) (a : ℕ)
    (ha : a ∈ s.freeCols) : (s.transition a).isSome := by
  rcases List.mem_map.1 ha with ⟨c, hc, rfl⟩
  have hfree : (colFreeRow s.board c).isSome := (List.mem_filter.1 hc).2
  unfold ConnectState.transition
  rcases Option.isSome_iff_exists.1 hfree with ⟨r, hr⟩
  have hlt : c.1 < 7 := c.isLt
  simp only [hlt, dif_pos]
  have : (⟨c.1, hlt⟩ : Fin 7) = c := rfl
  rw [this, hr]
  rfl

theorem joinComma_data : ∀ l : List String, (joinComma l).data = joinCD (l.map String.data)
  | [] => rfl
  | [x] => rfl
  | x :: y :: xs => by
      simp only [joinComma, joinCD, List.map, String.data_append,
        joinComma_data (y :: xs)]
      simp

theorem tok_append_inj {x y : List Char} (hx : cellTokOk x) (hy : cellTokOk y)
    (u v : List Char) (h : x ++ u = y ++ v) : x = y ∧ u = v := by
  rcases hx with rfl | rfl | rfl <;> rcases hy with rfl | rfl | rfl <;> simp_all

theorem joinCD_tokens_inj : ∀ (xs ys : List (List Char)) (r1 r2 : List Char),
    xs.length = ys.length →
    (∀ t ∈ xs, cellTokOk t) → (∀ t ∈ ys, cellTokOk t) →
    joinCD xs ++ '|' :: r1 = joinCD ys ++ '|' :: r2 →
    xs = ys ∧ r1 = r2 := by
  intro xs
  induction xs with
  | nil =>
      intro ys r1 r2 hlen _ _ heq
      have hys : ys = [] := List.length_eq_zero.1 hlen.symm
      subst hys
      simp only [joinCD, List.nil_append, List.cons.injEq] at heq
      exact ⟨rfl, heq.2⟩
  | cons x xs2 ih =>
      intro ys r1 r2 hlen hx hy heq
      cases ys with
      | nil => simp at hlen
      | cons y ys2 =>
          have hlen2 : xs2.length = ys2.length := by simpa using hlen
          have hxok : cellTokOk x := hx x (List.mem_cons_self x xs2)
          have hyok : cellTokOk y := hy y (List.mem_cons_self y ys2)
          cases xs2 with
          | nil =>
              have hys2 : ys2 = [] := List.length_eq_zero.1 hlen2.symm
              subst hys2
              simp only [joinCD] at heq
              obtain ⟨hxy, htl⟩ := tok_append_inj hxok hyok _ _ heq
              refine ⟨by rw [hxy], ?_⟩
              simpa using htl
          | cons x2 xs3 =>
              cases ys2 with
              | nil => simp at hlen2
              | cons y2 ys3 =>
                  have heq2 : x ++ (',' :: (joinCD (x2 :: xs3) ++ '|' :: r1)) =
                      y ++ (',' :: (joinCD (y2 :: ys3) ++ '|' :: r2)) := by
                    simpa only [joinCD, List.append_assoc, List.cons_append] using heq
                  obtain ⟨hxy, htl⟩ := tok_append_inj hxok hyok _ _ heq2
                  have htl2 : joinCD (x2 :: xs3) ++ '|' :: r1 =
                      joinCD (y2 :: ys3) ++ '|' :: r2 := by
                    simpa using htl
                  obtain ⟨h1, h2⟩ := ih (y2 :: ys3) r1 r2 hlen2
                    (fun t ht => hx t (List.mem_cons_of_mem _ ht))
                    (fun t ht => hy t (List.mem_cons_of_mem _ ht)) htl2
                  exact ⟨by rw [hxy, h1], h2⟩

theorem cellTok_ok (v : ℤ) (h : v = -1 ∨ v = 0 ∨ v = 1) : cellTokOk (toString v).data := by
  rcases h with rfl | rfl | rfl
  · left; decide
  · right; left; decide
  · right; right; decide

theorem cellTok_inj (v w : ℤ) (hv : v = -1 ∨ v = 0 ∨ v = 1)
    (hw : w = -1 ∨ w = 0 ∨ w = 1) (h : (toString v).data = (toString w).data) : v = w := by
  rcases hv with rfl | rfl | rfl <;> rcases hw with rfl | rfl | rfl <;> simp_all <;> revert h <;> decide

theorem map_cellTok_inj : ∀ (l1 l2 : List ℤ),
    (∀ v ∈ l1, v = -1 ∨ v = 0 ∨ v = 1) → (∀ v ∈ l2, v = -1 ∨ v = 0 ∨ v = 1) →
    l1.map (fun v => (toString v).data) = l2.map (fun v => (toString v).data) →
    l1 = l2 := by
  intro l1
  induction l1 with
  | nil =>
      intro l2 _ _ h
      cases l2 with
      | nil => rfl
      | cons w l2t => simp at h
  | cons v l1t ih =>
      intro l2 h1 h2 h
      cases l2 with
      | nil => simp at h
      | cons w l2t =>
          simp only [List.map, List.cons.injEq] at h
          have hv := cellTok_inj v w (h1 v (List.mem_cons_self _ _)) (h2 w (List.mem_cons_self _ _)) h.1
          have ht := ih l2t (fun x hx => h1 x (List.mem_cons_of_mem _ hx))
            (fun x hx => h2 x (List.mem_cons_of_mem _ hx)) h.2
          rw [hv, ht]

theorem flatten_rows_inj : ∀ (rs1 rs2 : List (List ℤ)),
    rs1.length = rs2.length → (∀ r ∈ rs1, r.length = 7) → (∀ r ∈ rs2, r.length = 7) →
    rs1.flatten = rs2.flatten → rs1 = rs2 := by
  intro rs1
  induction rs1 with
  | nil =>
      intro rs2 hlen _ _ _
      exact (List.length_eq_zero.1 hlen.symm).symm
  | cons r rs1t ih =>
      intro rs2 hlen h1 h2 h
      cases rs2 with
      | nil => simp at hlen
      | cons q rs2t =>
          simp only [List.flatten_cons] at h
          have hlq : r.length = q.length := by
            rw [h1 r (List.mem_cons_self _ _), h2 q (List.mem_cons_self _ _)]
          obtain ⟨hrq, htl⟩ := List.append_inj h hlq
          have := ih rs2t (by simpa using hlen)
            (fun x hx => h1 x (List.mem_cons_of_mem _ hx))
            (fun x hx => h2 x (List.mem_cons_of_mem _ hx)) htl
          rw [hrq, this]

theorem boardRows_inj (b1 b2 : Board) (h : boardRows b1 = boardRows b2) : b1 = b2 := by
  funext r c
  unfold boardRows at h
  rw [List.map_inj_left] at h
  have hr := h r (List.mem_finRange r)
  rw [List.map_inj_left] at hr
  exact hr c (List.mem_finRange c)

theorem flattenBoard_inj (b1 b2 : Board) (h : flattenBoard b1 = flattenBoard b2) : b1 = b2 := by
  apply boardRows_inj
  apply flatten_rows_inj _ _ (by simp [boardRows]) _ _ h <;>
    · intro r hr
      simp only [boardRows, List.mem_map] at hr
      rcases hr with ⟨x, _, rfl⟩
      simp

theorem mem_flattenBoard (b : Board) (v : ℤ) (hv : v ∈ flattenBoard b) :
    ∃ r c, v = b r c := by
  simp only [flattenBoard, boardRows, List.mem_flatten, List.mem_map] at hv
  rcases hv with ⟨l, ⟨r, _, rfl⟩, hvl⟩
  rcases List.mem_map.1 hvl with ⟨c, _, rfl⟩
  exact ⟨r, c, rfl⟩

theorem flattenBoard_length (b : Board) : (flattenBoard b).length = 42 := by
  simp only [flattenBoard, boardRows, List.length_flatten, List.map_map]
  rw [List.map_congr_left (g := fun _ => 7) (fun r _ => by simp [Function.comp])]
  decide

theorem crearClave_data (b : Board) (j : ℤ) (a : ℕ) :
    (crearClaveEstadoAccion b j a).data =
      (toString j).data ++ ':' ::
        (joinCD ((flattenBoard b).map (fun v => (toString v).data)) ++ '|' :: (toString a).data) := by
  simp only [crearClaveEstadoAccion, codificarEstado, String.data_append, joinComma_data,
    List.map_map, List.append_assoc]
  rfl

theorem playerTok_append_inj (j1 j2 : ℤ) (hj1 : j1 = -1 ∨ j1 = 1) (hj2 : j2 = -1 ∨ j2 = 1)
    (u v : List Char) (h : (toString j1).data ++ ':' :: u = (toString j2).data ++ ':' :: v) :
    j1 = j2 ∧ u = v := by
  have hm : (toString (-1 : ℤ)).data = ['-', '1'] := by decide
  have hp : (toString (1 : ℤ)).data = ['1'] := by decide
  rcases hj1 with rfl | rfl <;> rcases hj2 with rfl | rfl <;>
    simp only [hm, hp] at h <;> simp_all

theorem actTok_inj (a1 a2 : ℕ) (h1 : a1 < 7) (h2 : a2 < 7)
    (h : (toString a1).data = (toString a2).data) : a1 = a2 := by
  interval_cases a1 <;> interval_cases a2 <;> revert h <;> decide

theorem board_cellToks_ok (b : Board) (hb : ∀ r c, b r c = -1 ∨ b r c = 0 ∨ b r c = 1) :
    ∀ t ∈ (flattenBoard b).map (fun v => (toString v).data), cellTokOk t := by
  intro t ht
  rcases List.mem_map.1 ht with ⟨v, hv, rfl⟩
  rcases mem_flattenBoard b v hv with ⟨r, c, rfl⟩
  exact cellTok_ok _ (hb r c)

/-- C9: the state-action key encoding shared by `train.py`
(`crear_clave_estado_accion`) and the Group C policy (`codificar_estado_accion`)
is stable and injective over boards with cells in \x7b-1,0,1\x7d, players in
\x7b-1,1\x7d and column actions 0..6, and the two encodings agree on every
triple. -/
theorem state_action_key_injective
    (b1 b2 : Board) (j1 j2 : ℤ) (a1 a2 : ℕ)
    (hb1 : ∀ r c, b1 r c = -1 ∨ b1 r c = 0 ∨ b1 r c = 1)
    (hb2 : ∀ r c, b2 r c = -1 ∨ b2 r c = 0 ∨ b2 r c = 1)
    (hj1 : j1 = -1 ∨ j1 = 1) (hj2 : j2 = -1 ∨ j2 = 1)
    (ha1 : a1 < 7) (ha2 : a2 < 7) :
    (crearClaveEstadoAccion b1 j1 a1 = crearClaveEstadoAccion b2 j2 a2 ↔
      (b1 = b2 ∧ j1 = j2 ∧ a1 = a2)) ∧
    codificarEstadoAccion b1 j1 a1 = crearClaveEstadoAccion b1 j1 a1 := by
  refine ⟨⟨fun h => ?_, fun h => by
    obtain ⟨rfl, rfl, rfl⟩ := h
    rfl⟩, rfl⟩
  have hd := String.ext_iff.1 h
  rw [crearClave_data, crearClave_data] at hd
  obtain ⟨hj, hrest⟩ := playerTok_append_inj j1 j2 hj1 hj2 _ _ hd
  have hlen : ((flattenBoard b1).map (fun v => (toString v).data)).length =
      ((flattenBoard b2).map (fun v => (toString v).data)).length := by
    simp [flattenBoard_length]
  obtain ⟨hcells, htl⟩ := joinCD_tokens_inj _ _ _ _ hlen
    (board_cellToks_ok b1 hb1) (board_cellToks_ok b2 hb2) hrest
  have hflat : flattenBoard b1 = flattenBoard b2 := by
    apply map_cellTok_inj
    · intro v hv
      rcases mem_flattenBoard b1 v hv with ⟨r, c, rfl⟩
      exact hb1 r c
    · intro v hv
      rcases mem_flattenBoard b2 v hv with ⟨r, c, rfl⟩
      exact hb2 r c
    · exact hcells
  exact ⟨flattenBoard_inj _ _ hflat, hj, actTok_inj a1 a2 ha1 ha2 htl⟩

/-- Witness for C9 at a concrete triple: the empty board, player -1, action 0. -/
theorem state_action_key_injective_witness :
    (crearClaveEstadoAccion emptyBoard (-1) 0 = crearClaveEstadoAccion emptyBoard (-1) 0 ↔
      (emptyBoard = emptyBoard ∧ (-1 : ℤ) = -1 ∧ (0 : ℕ) = 0)) ∧
    codificarEstadoAccion emptyBoard (-1) 0 = crearClaveEstadoAccion emptyBoard (-1) 0 :=
  state_action_key_injective emptyBoard emptyBoard (-1) (-1) 0 0
    (fun r c => by right; left; rfl) (fun r c => by right; left; rfl)
    (Or.inl rfl) (Or.inl rfl) (by decide) (by decide)

theorem actualizarGo_spec :
    ∀ (L : List (ConnectState × ℕ)) (ag : AgenteQ) (ret : ℚ) (vis : List String),
    (L.map keyAt).Nodup → (L.map stateKeyAt).Nodup →
    (∀ e ∈ L, keyAt e ∉ vis) →
    (∀ j : Fin L.length,
        (actualizarGo ag ret vis L).Q (keyAt (L.get j)) =
          ag.Q (keyAt (L.get j)) +
            ag.alpha * (ag.gamma ^ (j : ℕ) * ret - ag.Q (keyAt (L.get j))) ∧
        (actualizarGo ag ret vis L).N (keyAt (L.get j)) = ag.N (keyAt (L.get j)) + 1 ∧
        (actualizarGo ag ret vis L).visitasEstado (stateKeyAt (L.get j)) =
          ag.visitasEstado (stateKeyAt (L.get j)) + 1) ∧
    (∀ k, k ∉ L.map keyAt →
        (actualizarGo ag ret vis L).Q k = ag.Q k ∧ (actualizarGo ag ret vis L).N k = ag.N k) ∧
    (∀ k, k ∉ L.map stateKeyAt →
        (actualizarGo ag ret vis L).visitasEstado k = ag.visitasEstado k) ∧
    (actualizarGo ag ret vis L).gamma = ag.gamma ∧
    (actualizarGo ag ret vis L).alpha = ag.alpha := by
  intro L
  induction L with
  | nil =>
      intro ag ret vis _ _ _
      refine ⟨fun j => absurd j.isLt (by simp), fun k _ => ⟨rfl, rfl⟩, fun k _ => rfl, rfl, rfl⟩
  | cons e rest ih =>
      obtain ⟨s, a⟩ := e
      intro ag ret vis hk hsk hvis
      rw [List.map_cons, List.nodup_cons] at hk hsk
      have hvh : keyAt (s, a) ∉ vis := hvis _ (List.mem_cons_self _ _)
      set clave := keyAt (s, a) with hclave
      set qNuevo := obtenerQ ag s a + ag.alpha * (ret - obtenerQ ag s a) with hqn
      set ag2 : AgenteQ :=
        { Q := fun k => if k = clave then qNuevo else ag.Q k
          N := fun k => if k = clave then ag.N k + 1 else ag.N k
          visitasEstado := fun k =>
            if k = stateKeyAt (s, a) then ag.visitasEstado k + 1
            else ag.visitasEstado k
          gamma := ag.gamma
          alpha := ag.alpha } with hag2
      have hQ2 : ∀ k, ag2.Q k = if k = clave then qNuevo else ag.Q k := fun _ => rfl
      have hN2 : ∀ k, ag2.N k = if k = clave then ag.N k + 1 else ag.N k := fun _ => rfl
      have hV2 : ∀ k, ag2.visitasEstado k =
          if k = stateKeyAt (s, a) then ag.visitasEstado k + 1 else ag.visitasEstado k :=
        fun _ => rfl
      have hvh2 : ¬(crearClaveEstadoAccion s.board s.player a ∈ vis) := hvh
      have hstep : actualizarGo ag ret vis ((s, a) :: rest) =
          actualizarGo ag2 (ag.gamma * ret) (clave :: vis) rest := by
        show actualizarGo (actualizarPaso ag vis s a ret).1 (ag.gamma * ret)
            (actualizarPaso ag vis s a ret).2 rest = _
        have hpaso : actualizarPaso ag vis s a ret = (ag2, clave :: vis) := by
          simp only [actualizarPaso]
          rw [if_neg hvh2]
          rfl
        rw [hpaso]
      have hvis2 : ∀ e2 ∈ rest, keyAt e2 ∉ clave :: vis := by
        intro e2 he2
        simp only [List.mem_cons, not_or]
        refine ⟨?_, hvis e2 (List.mem_cons_of_mem _ he2)⟩
        intro hcontra
        exact hk.1 (hcontra ▸ List.mem_map_of_mem keyAt he2)
      obtain ⟨ihmain, ihq, ihv, ihg, iha⟩ :=
        ih ag2 (ag.gamma * ret) (clave :: vis) hk.2 hsk.2 hvis2
      rw [hstep]
      refine ⟨?_, ?_, ?_, by rw [ihg], by rw [iha]⟩
      · intro j
        rcases j with ⟨jv, hj⟩
        cases jv with
        | zero =>
            have hget0 : ((s, a) :: rest).get ⟨0, hj⟩ = (s, a) := rfl
            rw [hget0]
            obtain ⟨hqu, hnu⟩ := ihq clave hk.1
            have hvu := ihv _ hsk.1
            refine ⟨?_, ?_, ?_⟩
            · rw [hqu, hQ2, if_pos rfl, hqn]
              have hob : obtenerQ ag s a = ag.Q clave := rfl
              rw [hob]
              simp only [Fin.val_mk, pow_zero, one_mul]
            · rw [hnu, hN2, if_pos rfl]
            · rw [hvu, hV2, if_pos rfl]
        | succ i =>
            have hi : i < rest.length := by simpa using hj
            have hget : ((s, a) :: rest).get ⟨i + 1, hj⟩ = rest.get ⟨i, hi⟩ := rfl
            rw [hget]
            obtain ⟨m1, m2, m3⟩ := ihmain ⟨i, hi⟩
            have hkne : keyAt (rest.get ⟨i, hi⟩) ≠ clave := by
              intro hcontra
              exact hk.1 (hcontra ▸ List.mem_map_of_mem keyAt (rest.get_mem _ _))
            have hsne : stateKeyAt (rest.get ⟨i, hi⟩) ≠ stateKeyAt (s, a) := by
              intro hcontra
              exact hsk.1 (hcontra ▸ List.mem_map_of_mem stateKeyAt (rest.get_mem _ _))
            refine ⟨?_, ?_, ?_⟩
            · rw [m1, hQ2, if_neg hkne]
              show ag.Q _ + ag.alpha * (ag.gamma ^ i * (ag.gamma * ret) - ag.Q _) = _
              have hpow : ag.gamma ^ i * (ag.gamma * ret) = ag.gamma ^ (i + 1) * ret := by
                rw [pow_succ]; ring
              rw [hpow]
            · rw [m2, hN2, if_neg hkne]
            · rw [m3, hV2, if_neg hsne]
      · intro k hk2
        rw [List.map_cons, List.mem_cons, not_or] at hk2
        have hne : k ≠ clave := hk2.1
        obtain ⟨hqu, hnu⟩ := ihq k hk2.2
        exact ⟨by rw [hqu, hQ2, if_neg hne], by rw [hnu, hN2, if_neg hne]⟩
      · intro k hk2
        rw [List.map_cons, List.mem_cons, not_or] at hk2
        rw [ihv k hk2.2, hV2, if_neg hk2.1]

/-- C5: after one self-play episode, `actualizar_q_values` updates each
distinct (state, action) key of the learner trajectory exactly once via
`new = old + alpha * (G - old)` with `G = gamma^d * reward` and `d` the number
of trajectory entries strictly after that pair; for every updated key both the
per-(state,action) counter `N` and the per-state counter are bumped by exactly
1, and every other key is untouched.  The no-duplicate hypotheses hold for
every episode trajectory, since boards strictly gain pieces during a game. -/
theorem trainer_first_visit_mc_update
    (ag : AgenteQ) (tray : List (ConnectState × ℕ)) (recompensa : ℚ)
    (hk : (tray.map keyAt).Nodup) (hs : (tray.map stateKeyAt).Nodup) :
    (∀ j : Fin tray.length,
        (actualizarQValues ag tray recompensa).Q (keyAt (tray.get j)) =
          ag.Q (keyAt (tray.get j)) +
            ag.alpha * (ag.gamma ^ (tray.length - 1 - (j : ℕ)) * recompensa -
              ag.Q (keyAt (tray.get j))) ∧
        (actualizarQValues ag tray recompensa).N (keyAt (tray.get j)) =
          ag.N (keyAt (tray.get j)) + 1 ∧
        (actualizarQValues ag tray recompensa).visitasEstado (stateKeyAt (tray.get j)) =
          ag.visitasEstado (stateKeyAt (tray.get j)) + 1) ∧
    (∀ k, k ∉ tray.map keyAt →
        (actualizarQValues ag tray recompensa).Q k = ag.Q k ∧
        (actualizarQValues ag tray recompensa).N k = ag.N k) ∧
    (∀ k, k ∉ tray.map stateKeyAt →
        (actualizarQValues ag tray recompensa).visitasEstado k = ag.visitasEstado k) := by
  have hrk : (tray.reverse.map keyAt).Nodup := by
    rw [List.map_reverse, List.nodup_reverse]; exact hk
  have hrs : (tray.reverse.map stateKeyAt).Nodup := by
    rw [List.map_reverse, List.nodup_reverse]; exact hs
  obtain ⟨gmain, gq, gv, _, _⟩ :=
    actualizarGo_spec tray.reverse ag recompensa [] hrk hrs (by simp)
  refine ⟨?_, ?_, ?_⟩
  · intro j
    have hjr : tray.length - 1 - (j : ℕ) < tray.reverse.length := by
      have := j.isLt
      simp only [List.length_reverse]
      omega
    have hget : tray.reverse.get ⟨tray.length - 1 - (j : ℕ), hjr⟩ = tray.get j := by
      simp only [List.get_eq_getElem, List.getElem_reverse]
      congr 1
      have := j.isLt
      omega
    have hmain := gmain ⟨tray.length - 1 - (j : ℕ), hjr⟩
    rw [hget] at hmain
    exact hmain
  · intro k hk2
    exact gq k (by rwa [List.map_reverse, List.mem_reverse])
  · intro k hk2
    exact gv k (by rwa [List.map_reverse, List.mem_reverse])

/-- Witness for C5: a one-entry trajectory updated with reward 1. -/
theorem trainer_first_visit_mc_update_witness :
    (trayW.map keyAt).Nodup ∧ (trayW.map stateKeyAt).Nodup ∧
    ((∀ j : Fin trayW.length,
        (actualizarQValues agW trayW 1).Q (keyAt (trayW.get j)) =
          agW.Q (keyAt (trayW.get j)) +
            agW.alpha * (agW.gamma ^ (trayW.length - 1 - (j : ℕ)) * 1 -
              agW.Q (keyAt (trayW.get j))) ∧
        (actualizarQValues agW trayW 1).N (keyAt (trayW.get j)) =
          agW.N (keyAt (trayW.get j)) + 1 ∧
        (actualizarQValues agW trayW 1).visitasEstado (stateKeyAt (trayW.get j)) =
          agW.visitasEstado (stateKeyAt (trayW.get j)) + 1) ∧
    (∀ k, k ∉ trayW.map keyAt →
        (actualizarQValues agW trayW 1).Q k = agW.Q k ∧
        (actualizarQValues agW trayW 1).N k = agW.N k) ∧
    (∀ k, k ∉ trayW.map stateKeyAt →
        (actualizarQValues agW trayW 1).visitasEstado k = agW.visitasEstado k)) :=
  ⟨by simp [trayW], by simp [trayW],
    trainer_first_visit_mc_update agW trayW 1 (by simp [trayW]) (by simp [trayW])⟩

theorem modAt_length {α : Type} : ∀ (l : List α) (i : ℕ) (f : α → α),
    (modAt l i f).length = l.length
  | [], _, _ => rfl
  | _ :: xs, 0, f => rfl
  | x :: xs, n + 1, f => by simp [modAt, modAt_length xs n f]

theorem modAt_getElem_eq {α : Type} : ∀ (l : List α) (i : ℕ) (f : α → α) (c : α),
    l[i]? = some c → (modAt l i f)[i]? = some (f c)
  | [], i, f, c => by simp
  | x :: xs, 0, f, c => by
      intro h
      simp only [List.getElem?_cons_zero, Option.some.injEq] at h
      simp [modAt, h]
  | x :: xs, n + 1, f, c => by
      intro h
      simp only [List.getElem?_cons_succ] at h
      simpa [modAt] using modAt_getElem_eq xs n f c h

theorem modAt_getElem_ne {α : Type} : ∀ (l : List α) (i j : ℕ) (f : α → α),
    i ≠ j → (modAt l i f)[j]? = l[j]?
  | [], _, _, _, _ => rfl
  | x :: xs, 0, 0, f, h => absurd rfl h
  | x :: xs, 0, j + 1, f, h => by simp [modAt]
  | x :: xs, i + 1, 0, f, h => by simp [modAt]
  | x :: xs, i + 1, j + 1, f, h => by
      simpa [modAt] using modAt_getElem_ne xs i j f (fun hc => h (by rw [hc]))

theorem modAt_oob {α : Type} : ∀ (l : List α) (i : ℕ) (f : α → α),
    l.length ≤ i → modAt l i f = l
  | [], _, _, _ => rfl
  | x :: xs, 0, f, h => by simp at h
  | x :: xs, i + 1, f, h => by
      simp only [modAt, List.cons.injEq, true_and]
      exact modAt_oob xs i f (by simpa using h)

theorem backprop_state (r : ℚ) (acting : ℤ) (pp : Option ℤ) (p : List ℕ) (t : GTree) :
    (backprop r acting pp p t).state = t.state := by
  cases p <;> rfl

theorem backprop_visits (r : ℚ) (acting : ℤ) (pp : Option ℤ) (p : List ℕ) (t : GTree) :
    (backprop r acting pp p t).visits = t.visits + 1 := by
  cases p <;> rfl

theorem backprop_wins (r : ℚ) (acting : ℤ) (pp : Option ℤ) (p : List ℕ) (t : GTree) :
    (backprop r acting pp p t).wins = t.wins + creditFor r acting pp := by
  cases p <;> rfl

theorem backprop_children_nil (r : ℚ) (acting : ℤ) (pp : Option ℤ) (t : GTree) :
    (backprop r acting pp [] t).children = t.children := rfl

theorem backprop_children_cons (r : ℚ) (acting : ℤ) (pp : Option ℤ) (i : ℕ)
    (p : List ℕ) (t : GTree) :
    (backprop r acting pp (i :: p) t).children =
      modAt t.children i (fun ac => (ac.1, backprop r acting (some t.state.player) p ac.2)) := rfl

theorem getNode_append (t : GTree) (q1 q2 : List ℕ) :
    getNode t (q1 ++ q2) = (getNode t q1).bind (fun n => getNode n q2) := by
  induction q1 generalizing t with
  | nil => rfl
  | cons i q1t ih =>
      show getNode t (i :: (q1t ++ q2)) = _
      simp only [getNode]
      cases t.children[i]? with
      | none => rfl
      | some c => simpa using ih c.2

theorem getNode_prefix_isSome (t : GTree) (p q : List ℕ) (hq : q <+: p)
    (h : (getNode t p).isSome) : (getNode t q).isSome := by
  rcases hq with ⟨rest, rfl⟩
  rw [getNode_append] at h
  cases hg : getNode t q with
  | none => rw [hg] at h; simp at h
  | some n => rfl

theorem parentPlayerOf_append : ∀ (q : List ℕ) (t : GTree) (pp : Option ℤ)
    (par : GTree) (i : ℕ), getNode t q = some par →
    (getNode t (q ++ [i])).isSome →
    parentPlayerOf t pp (q ++ [i]) = some par.state.player
  | [], t, pp, par, i => by
      intro h hv
      simp only [getNode, Option.some.injEq] at h
      subst h
      show parentPlayerOf t pp [i] = _
      simp only [parentPlayerOf]
      cases hc : t.children[i]? with
      | none =>
          exfalso
          have : getNode t [i] = none := by simp [getNode, hc]
          rw [List.nil_append, this] at hv
          simp at hv
      | some c => simp [parentPlayerOf]
  | j :: q2, t, pp, par, i => by
      intro h hv
      simp only [getNode] at h
      cases hc : t.children[j]? with
      | none => rw [hc] at h; exact absurd h (by simp)
      | some c =>
          rw [hc] at h
          have hv2 : (getNode c.2 (q2 ++ [i])).isSome := by
            have : getNode t ((j :: q2) ++ [i]) = getNode c.2 (q2 ++ [i]) := by
              simp [getNode, hc]
            rwa [this] at hv
          show parentPlayerOf t pp (j :: (q2 ++ [i])) = _
          simp only [parentPlayerOf, hc]
          exact parentPlayerOf_append q2 c.2 (some t.state.player) par i h hv2

theorem backprop_prefix_aux : ∀ (p q : List ℕ) (t : GTree) (pp : Option ℤ) (r : ℚ)
    (acting : ℤ), q <+: p → (getNode t p).isSome →
    ∃ n n2, getNode t q = some n ∧
      getNode (backprop r acting pp p t) q = some n2 ∧
      n2.state = n.state ∧ n2.visits = n.visits + 1 ∧
      n2.wins = n.wins + creditFor r acting (parentPlayerOf t pp q) := by
  intro p
  induction p with
  | nil =>
      intro q t pp r acting hq _
      have hq0 : q = [] := List.prefix_nil.1 hq
      subst hq0
      exact ⟨t, backprop r acting pp [] t, rfl, rfl, backprop_state _ _ _ _ _,
        backprop_visits _ _ _ _ _, backprop_wins _ _ _ _ _⟩
  | cons j p2 ih =>
      intro q t pp r acting hq hv
      cases q with
      | nil =>
          exact ⟨t, backprop r acting pp (j :: p2) t, rfl, rfl, backprop_state _ _ _ _ _,
            backprop_visits _ _ _ _ _, backprop_wins _ _ _ _ _⟩
      | cons i q2 =>
          obtain ⟨hij, hq2⟩ := List.cons_prefix_cons.1 hq
          subst hij
          cases hc : t.children[i]? with
          | none =>
              exfalso
              unfold getNode at hv
              rw [hc] at hv
              simp at hv
          | some c =>
              have hv2 : (getNode c.2 p2).isSome := by
                unfold getNode at hv
                rwa [hc] at hv
              obtain ⟨n, n2, h1, h2, h3, h4, h5⟩ :=
                ih q2 c.2 (some t.state.player) r acting hq2 hv2
              refine ⟨n, n2, ?_, ?_, h3, h4, ?_⟩
              · unfold getNode
                rw [hc]
                exact h1
              · show getNode (backprop r acting pp (i :: p2) t) (i :: q2) = some n2
                unfold getNode
                rw [backprop_children_cons,
                  modAt_getElem_eq t.children i _ c hc]
                exact h2
              · rw [h5]
                congr 1
                show creditFor r acting (parentPlayerOf c.2 (some t.state.player) q2) = _
                congr 1
                show _ = parentPlayerOf t pp (i :: q2)
                simp [parentPlayerOf, hc]

/-- C2: during backpropagation of one rollout reward `r`, every node on the
path from the simulated node up to the root gains exactly one visit; a node
adds the raw reward `r` to its wins when it is the root (no parent) or when its
parent's state has the acting player to move, and `1 - r` otherwise — in
particular the root always receives the raw, never-inverted reward.  (Shared
backpropagation loop of `Aha.act`, `Hello.act` and
`LaMejorPoliticaConQvalues.act`.) -/
theorem backprop_path_update (t : GTree) (p : List ℕ) (r : ℚ) (acting : ℤ)
    (hvalid : (getNode t p).isSome) :
    (∃ rt, getNode (backprop r acting none p t) [] = some rt ∧
        rt.visits = t.visits + 1 ∧ rt.wins = t.wins + r) ∧
    (∀ q i, q ++ [i] <+: p →
        ∃ par n n2, getNode t q = some par ∧ getNode t (q ++ [i]) = some n ∧
          getNode (backprop r acting none p t) (q ++ [i]) = some n2 ∧
          n2.visits = n.visits + 1 ∧
          n2.wins = n.wins + (if par.state.player = acting then r else 1 - r)) := by
  constructor
  · obtain ⟨n, n2, h1, h2, _, h4, h5⟩ :=
      backprop_prefix_aux p [] t none r acting List.nil_prefix hvalid
    simp only [getNode, Option.some.injEq] at h1
    subst h1
    exact ⟨n2, h2, h4, by simpa [creditFor, parentPlayerOf] using h5⟩
  · intro q i hq
    have hqpre : q <+: p := List.IsPrefix.trans ⟨[i], rfl⟩ hq
    have hqv : (getNode t q).isSome := getNode_prefix_isSome t p q hqpre hvalid
    obtain ⟨par, hpar⟩ := Option.isSome_iff_exists.1 hqv
    have hqiv : (getNode t (q ++ [i])).isSome := getNode_prefix_isSome t p _ hq hvalid
    obtain ⟨n, n2, h1, h2, _, h4, h5⟩ :=
      backprop_prefix_aux p (q ++ [i]) t none r acting hq hvalid
    refine ⟨par, n, n2, hpar, h1, h2, h4, ?_⟩
    rw [h5, parentPlayerOf_append q t none par i hpar hqiv]
    rfl

/-- Witness for C2: one backpropagation along the path to the first child of a
two-node tree. -/
theorem backprop_path_update_witness :
    (getNode tW [0]).isSome = true ∧
    ((∃ rt, getNode (backprop 1 (-1) none [0] tW) [] = some rt ∧
        rt.visits = tW.visits + 1 ∧ rt.wins = tW.wins + 1) ∧
    (∀ q i, q ++ [i] <+: [0] →
        ∃ par n n2, getNode tW q = some par ∧ getNode tW (q ++ [i]) = some n ∧
          getNode (backprop 1 (-1) none [0] tW) (q ++ [i]) = some n2 ∧
          n2.visits = n.visits + 1 ∧
          n2.wins = n.wins + (if par.state.player = -1 then 1 else 1 - 1))) :=
  ⟨rfl, backprop_path_update tW [0] 1 (-1) (by rfl)⟩

theorem WF_elim {t : GTree} (h : WF t) :
    0 ≤ t.wins ∧ (t.children.map Prod.fst).Nodup ∧
    (∀ a ∈ t.children.map Prod.fst, a ∈ t.state.freeCols) ∧
    (∀ ac ∈ t.children, WF ac.2) := by
  cases h with
  | mk s v w cs hw hn hsub hch => exact ⟨hw, hn, hsub, hch⟩

theorem WF_mkNode (s : ConnectState) : WF (mkNode s) :=
  WF.mk s 0 0 [] le_rfl List.nodup_nil (by simp) (by simp)

theorem expandTree_state (t : GTree) : (expandTree t).state = t.state := by
  unfold expandTree
  cases untried t <;> rfl

theorem expandTree_visits (t : GTree) : (expandTree t).visits = t.visits := by
  unfold expandTree
  cases untried t <;> rfl

theorem expandTree_wins (t : GTree) : (expandTree t).wins = t.wins := by
  unfold expandTree
  cases untried t <;> rfl

theorem expandTree_children_nil (t : GTree) (h : untried t = []) :
    (expandTree t).children = t.children := by
  unfold expandTree
  rw [h]

theorem expandTree_children_cons (t : GTree) (a : ℕ) (rest : List ℕ)
    (h : untried t = a :: rest) :
    (expandTree t).children = t.children ++ [(a, mkNode (transD t.state a))] := by
  unfold expandTree
  rw [h]
  rfl

theorem mem_untried {t : GTree} {a : ℕ} (h : a ∈ untried t) :
    a ∈ t.state.freeCols ∧ a ∉ childKeys t := by
  unfold untried at h
  have := List.mem_filter.1 h
  exact ⟨this.1, by simpa using this.2⟩

theorem untried_ne_nil {t : GTree} (hwf : WF t) (hfe : fullyExpanded t = false) :
    untried t ≠ [] := by
  intro hnil
  obtain ⟨_, hnodup, hsub, _⟩ := WF_elim hwf
  have hall : ∀ a ∈ t.state.freeCols, a ∈ childKeys t := by
    intro a ha
    by_contra hmem
    have : a ∈ untried t := List.mem_filter.2 ⟨ha, by simpa using hmem⟩
    rw [hnil] at this
    exact absurd this (by simp)
  have h1 : (childKeys t).length ≤ t.state.freeCols.length :=
    (List.Nodup.subperm hnodup hsub).length_le
  have h2 : t.state.freeCols.length ≤ (childKeys t).length :=
    (List.Nodup.subperm (freeCols_nodup t.state.board) hall).length_le
  have hlen : t.children.length = t.state.freeCols.length := by
    have : (childKeys t).length = t.children.length := by simp [childKeys]
    omega
  unfold fullyExpanded at hfe
  rw [hlen] at hfe
  simp at hfe

theorem expandTree_WF {t : GTree} (hwf : WF t) : WF (expandTree t) := by
  cases huntried : untried t with
  | nil =>
      unfold expandTree
      rw [huntried]
      exact hwf
  | cons a rest =>
      have hmema : a ∈ untried t := by rw [huntried]; exact List.mem_cons_self _ _
      obtain ⟨hafree, hanotin⟩ := mem_untried hmema
      unfold expandTree
      rw [huntried]
      obtain ⟨hw, hnodup, hsub, hch⟩ := WF_elim hwf
      cases t with
      | node s v w cs =>
          refine WF.mk s v w _ hw ?_ ?_ ?_
          · rw [List.map_append]
            rw [List.nodup_append]
            exact ⟨hnodup, List.nodup_singleton a, by
              intro x hx hmem
              simp only [List.map_cons, List.map_nil, List.mem_singleton] at hmem
              subst hmem
              exact hanotin hx⟩
          · intro x hx
            rw [List.map_append] at hx
            rcases List.mem_append.1 hx with hx | hx
            · exact hsub x hx
            · simp only [List.map_cons, List.map_nil, List.mem_singleton] at hx
              subst hx
              exact hafree
          · intro ac hac
            rcases List.mem_append.1 hac with hac | hac
            · exact hch ac hac
            · simp only [List.mem_singleton] at hac
              subst hac
              exact WF_mkNode _

theorem modAt_map_fst {β : Type} : ∀ (l : List (ℕ × β)) (i : ℕ) (g : ℕ × β → ℕ × β),
    (∀ x, (g x).1 = x.1) → (modAt l i g).map Prod.fst = l.map Prod.fst
  | [], _, _, _ => rfl
  | x :: xs, 0, g, hg => by simp [modAt, hg x]
  | x :: xs, i + 1, g, hg => by simp [modAt, modAt_map_fst xs i g hg]

theorem mem_modAt {α : Type} : ∀ (l : List α) (i : ℕ) (g : α → α) (x : α),
    x ∈ modAt l i g → x ∈ l ∨ ∃ y ∈ l, x = g y
  | [], _, _, _ => by simp [modAt]
  | z :: xs, 0, g, x => by
      intro h
      rcases List.mem_cons.1 h with h | h
      · exact Or.inr ⟨z, List.mem_cons_self _ _, h⟩
      · exact Or.inl (List.mem_cons_of_mem _ h)
  | z :: xs, i + 1, g, x => by
      intro h
      rcases List.mem_cons.1 h with h | h
      · exact Or.inl (h ▸ List.mem_cons_self _ _)
      · rcases mem_modAt xs i g x h with h | ⟨y, hy, hxy⟩
        · exact Or.inl (List.mem_cons_of_mem _ h)
        · exact Or.inr ⟨y, List.mem_cons_of_mem _ hy, hxy⟩

theorem sum_map_modAt_eq {α : Type} : ∀ (l : List α) (i : ℕ) (g : α → α) (m : α → ℕ),
    (∀ x, m (g x) = m x) → ((modAt l i g).map m).sum = (l.map m).sum
  | [], _, _, _, _ => rfl
  | x :: xs, 0, g, m, hg => by simp [modAt, hg x]
  | x :: xs, i + 1, g, m, hg => by
      simp [modAt, sum_map_modAt_eq xs i g m hg]

theorem sum_map_modAt_bump {α : Type} : ∀ (l : List α) (i : ℕ) (g : α → α) (m : α → ℕ),
    i < l.length → (∀ x, m (g x) = m x + 1) →
    ((modAt l i g).map m).sum = (l.map m).sum + 1
  | [], i, _, _, h, _ => by simp at h
  | x :: xs, 0, g, m, _, hg => by simp [modAt, hg x]; omega
  | x :: xs, i + 1, g, m, h, hg => by
      have := sum_map_modAt_bump xs i g m (by simpa using h) hg
      simp [modAt, this]
      omega

theorem updateAt_state (t : GTree) (p : List ℕ) (f : GTree → GTree)
    (hf : ∀ u, (f u).state = u.state) : (updateAt t p f).state = t.state := by
  cases p with
  | nil => exact hf t
  | cons i q => rfl

theorem updateAt_visits_cons (t : GTree) (i : ℕ) (p : List ℕ) (f : GTree → GTree) :
    (updateAt t (i :: p) f).visits = t.visits := rfl

theorem updateAt_children_cons (t : GTree) (i : ℕ) (p : List ℕ) (f : GTree → GTree) :
    (updateAt t (i :: p) f).children =
      modAt t.children i (fun ac => (ac.1, updateAt ac.2 p f)) := rfl

theorem updateAt_top_visits : ∀ (p : List ℕ) (t : GTree) (f : GTree → GTree),
    (∀ u, (f u).visits = u.visits) → (updateAt t p f).visits = t.visits
  | [], t, f, hf => hf t
  | i :: q, t, f, _ => rfl

theorem updateAt_WF : ∀ (p : List ℕ) (t : GTree) (f : GTree → GTree),
    (∀ u, WF u → WF (f u)) → (∀ u, (f u).state = u.state) →
    WF t → WF (updateAt t p f)
  | [], t, f, hwf, _, h => hwf t h
  | i :: q, t, f, hwf, hst, h => by
      obtain ⟨hw, hnodup, hsub, hch⟩ := WF_elim h
      cases t with
      | node s v w cs =>
          show WF (.node s v w (modAt cs i (fun ac => (ac.1, updateAt ac.2 q f))))
          refine WF.mk s v w _ hw ?_ ?_ ?_
          · rw [modAt_map_fst cs i (fun ac => (ac.1, updateAt ac.2 q f)) (fun x => rfl)]
            exact hnodup
          · rw [modAt_map_fst cs i (fun ac => (ac.1, updateAt ac.2 q f)) (fun x => rfl)]
            exact hsub
          · intro ac hac
            rcases mem_modAt cs i _ ac hac with hmem | ⟨y, hy, hxy⟩
            · exact hch ac hmem
            · subst hxy
              exact updateAt_WF q y.2 f hwf hst (hch y hy)

theorem creditFor_nonneg (r : ℚ) (acting : ℤ) (pp : Option ℤ)
    (h0 : 0 ≤ r) (h1 : r ≤ 1) : 0 ≤ creditFor r acting pp := by
  cases pp with
  | none => exact h0
  | some pl =>
      show 0 ≤ if pl = acting then r else 1 - r
      split
      · exact h0
      · linarith

theorem backprop_WF : ∀ (p : List ℕ) (pp : Option ℤ) (t : GTree) (r : ℚ) (acting : ℤ),
    0 ≤ r → r ≤ 1 → WF t → WF (backprop r acting pp p t)
  | [], pp, t, r, acting, h0, h1, h => by
      obtain ⟨hw, hnodup, hsub, hch⟩ := WF_elim h
      cases t with
      | node s v w cs =>
          exact WF.mk s (v + 1) _ cs
            (by have := creditFor_nonneg r acting pp h0 h1; positivity)
            hnodup hsub hch
  | i :: q, pp, t, r, acting, h0, h1, h => by
      obtain ⟨hw, hnodup, hsub, hch⟩ := WF_elim h
      cases t with
      | node s v w cs =>
          show WF (.node s (v + 1) _
            (modAt cs i (fun ac => (ac.1, backprop r acting (some s.player) q ac.2))))
          refine WF.mk s (v + 1) _ _
            (by have := creditFor_nonneg r acting pp h0 h1; positivity) ?_ ?_ ?_
          · rw [modAt_map_fst cs i
              (fun ac => (ac.1, backprop r acting (some s.player) q ac.2)) (fun x => rfl)]
            exact hnodup
          · rw [modAt_map_fst cs i
              (fun ac => (ac.1, backprop r acting (some s.player) q ac.2)) (fun x => rfl)]
            exact hsub
          · intro ac hac
            rcases mem_modAt cs i _ ac hac with hmem | ⟨y, hy, hxy⟩
            · exact hch ac hmem
            · subst hxy
              exact backprop_WF q (some s.player) y.2 r acting h0 h1 (hch y hy)

theorem getNode_selectPath_isSome (pick : GTree → Option ℕ) :
    ∀ (fuel : ℕ) (t : GTree), (getNode t (selectPath pick fuel t)).isSome
  | 0, t => rfl
  | fuel + 1, t => by
      unfold selectPath
      split
      · rfl
      · split
        · rfl
        · rename_i i hp
          split
          · rfl
          · rename_i c hc
            show (getNode t (i :: selectPath pick fuel c.2)).isSome
            unfold getNode
            rw [hc]
            exact getNode_selectPath_isSome pick fuel c.2

theorem selectPath_stop (pick : GTree → Option ℕ) (fuel : ℕ) (t : GTree)
    (h : (t.state.isFinal || !fullyExpanded t) = true) :
    selectPath pick (fuel + 1) t = [] := by
  unfold selectPath
  rw [if_pos h]

theorem selectPath_step (pick : GTree → Option ℕ) (fuel : ℕ) (t : GTree)
    (h : (t.state.isFinal || !fullyExpanded t) = false)
    (i : ℕ) (hp : pick t = some i) (c : ℕ × GTree) (hc : t.children[i]? = some c) :
    selectPath pick (fuel + 1) t = i :: selectPath pick fuel c.2 := by
  unfold selectPath
  rw [if_neg (by simp [h])]
  simp only [hp, hc]
  cases fuel <;> rfl

theorem bestIdxGo_bound {α : Type} [LinearOrder α] (score : ℕ × GTree → α) :
    ∀ (l : List (ℕ × GTree)) (k : ℕ) (bs : α) (best : Option ℕ) (j : ℕ),
    (∀ j0, best = some j0 → j0 < k) →
    bestIdxGo score l k bs best = some j → j < k + l.length
  | [], k, bs, best, j => by
      intro hb h
      have := hb j h
      omega
  | c :: rest, k, bs, best, j => by
      intro hb h
      unfold bestIdxGo at h
      split at h
      · have hkj : k = j := by simpa using h
        simp only [List.length_cons]
        omega
      · split at h
        · have := bestIdxGo_bound score rest (k + 1) (score c) (some k) j
            (fun j0 hj0 => by simp at hj0; omega) h
          simp only [List.length_cons]
          omega
        · have := bestIdxGo_bound score rest (k + 1) bs best j
            (fun j0 hj0 => by have := hb j0 hj0; omega) h
          simp only [List.length_cons]
          omega

theorem bestIdxGo_isSome {α : Type} [LinearOrder α] (score : ℕ × GTree → α) :
    ∀ (l : List (ℕ × GTree)) (k : ℕ) (bs : α) (best : Option ℕ),
    ((∃ c ∈ l, c.2.visits = 0) ∨ (∃ c ∈ l, bs < score c) ∨ best.isSome) →
    (bestIdxGo score l k bs best).isSome
  | [], k, bs, best => by
      intro h
      rcases h with ⟨c, hc, _⟩ | ⟨c, hc, _⟩ | h
      · simp at hc
      · simp at hc
      · exact h
  | c :: rest, k, bs, best => by
      intro h
      unfold bestIdxGo
      split
      · rfl
      · rename_i hv0
        split
        · exact bestIdxGo_isSome score rest (k + 1) (score c) (some k) (Or.inr (Or.inr rfl))
        · rename_i hlt
          apply bestIdxGo_isSome score rest (k + 1) bs best
          rcases h with ⟨d, hd, hdv⟩ | ⟨d, hd, hds⟩ | h
          · rcases List.mem_cons.1 hd with rfl | hd
            · exact absurd hdv hv0
            · exact Or.inl ⟨d, hd, hdv⟩
          · rcases List.mem_cons.1 hd with rfl | hd
            · exact absurd hds hlt
            · exact Or.inr (Or.inl ⟨d, hd, hds⟩)
          · exact Or.inr (Or.inr h)

theorem ucbScore_nonneg (w : ℝ) (hw : 0 ≤ w) (pv : ℕ) (c : GTree) (hc : 0 ≤ c.wins) :
    0 ≤ ucbScore w pv c := by
  unfold ucbScore
  have h1 : 0 ≤ (c.wins : ℝ) / (c.visits : ℝ) := by
    apply div_nonneg
    · exact_mod_cast hc
    · positivity
  have h2 : 0 ≤ w * Real.sqrt (Real.log (pv : ℝ) / (c.visits : ℝ)) :=
    mul_nonneg hw (Real.sqrt_nonneg _)
  linarith

theorem ucbPick_valid (w : ℝ) (hw : 0 ≤ w) (t : GTree) (hwf : WF t)
    (hne : t.children ≠ []) :
    ∃ i, ucbPick w t = some i ∧ i < t.children.length := by
  obtain ⟨_, _, _, hch⟩ := WF_elim hwf
  cases hcs : t.children with
  | nil => exact absurd hcs hne
  | cons c rest =>
      have hcmem : c ∈ t.children := by rw [hcs]; exact List.mem_cons_self _ _
      have hcw : 0 ≤ c.2.wins := (WF_elim (hch c hcmem)).1
      have hscore : (-999999 : ℝ) < ucbScore w t.visits c.2 := by
        have := ucbScore_nonneg w hw t.visits c.2 hcw
        linarith
      have hsome : (ucbPick w t).isSome := by
        unfold ucbPick bestIdx
        exact bestIdxGo_isSome _ t.children 0 _ none
          (Or.inr (Or.inl ⟨c, hcmem, hscore⟩))
      obtain ⟨i, hi⟩ := Option.isSome_iff_exists.1 hsome
      refine ⟨i, hi, ?_⟩
      have hlen : i < t.children.length := by
        have := bestIdxGo_bound (fun ac => ucbScore w t.visits ac.2) t.children 0
          (-999999 : ℝ) none i (by simp) hi
        omega
      exact hcs ▸ hlen

theorem scoreOf_bounds (p : ℤ) (s : ConnectState) : 0 ≤ scoreOf p s ∧ scoreOf p s ≤ 1 := by
  unfold scoreOf
  split
  · norm_num
  · split <;> norm_num

theorem simLoop_bounds (choose : ConnectState → List ℕ → ℕ) (p : ℤ) :
    ∀ (fuel : ℕ) (s : ConnectState), 0 ≤ simLoop choose p fuel s ∧ simLoop choose p fuel s ≤ 1
  | 0, s => scoreOf_bounds p s
  | fuel + 1, s => by
      unfold simLoop
      split
      · exact scoreOf_bounds p s
      · split
        · exact scoreOf_bounds p s
        · split
          · exact scoreOf_bounds p s
          · exact simLoop_bounds choose p fuel _

theorem simLoopR_bounds (rng : ℕ → ℕ) (p : ℤ) :
    ∀ (fuel : ℕ) (s : ConnectState) (k : ℕ),
    0 ≤ (simLoopR rng p fuel s k).1 ∧ (simLoopR rng p fuel s k).1 ≤ 1
  | 0, s, k => scoreOf_bounds p s
  | fuel + 1, s, k => by
      unfold simLoopR
      split
      · exact scoreOf_bounds p s
      · split
        · exact scoreOf_bounds p s
        · split
          · exact scoreOf_bounds p s
          · exact simLoopR_bounds rng p fuel _ _

theorem selectPath_stop_any (pick : GTree → Option ℕ) (fuel : ℕ) (t : GTree)
    (h : (t.state.isFinal || !fullyExpanded t) = true) :
    selectPath pick fuel t = [] := by
  cases fuel with
  | zero => rfl
  | succ f =>
      unfold selectPath
      rw [if_pos h]

theorem freeCols_ne_nil_of_not_final (s : ConnectState) (h : s.isFinal = false) :
    s.freeCols ≠ [] := by
  unfold ConnectState.isFinal at h
  intro hnil
  rw [hnil] at h
  simp at h

theorem children_ne_nil_of_full (t : GTree) (hfe : fullyExpanded t = true)
    (hfree : t.state.freeCols ≠ []) : t.children ≠ [] := by
  unfold fullyExpanded at hfe
  intro hnil
  rw [hnil] at hfe
  simp only [List.length_nil] at hfe
  have : t.state.freeCols.length = 0 := by
    have := Nat.beq_eq_true_eq 0 t.state.freeCols.length ▸ hfe
    omega
  exact hfree (List.length_eq_zero.1 this)

theorem sumChildVisits_expandTree (t : GTree) :
    sumChildVisits (expandTree t) = sumChildVisits t := by
  cases hu : untried t with
  | nil => rw [sumChildVisits, expandTree_children_nil t hu]; rfl
  | cons a rest =>
      rw [sumChildVisits, expandTree_children_cons t a rest hu]
      simp [sumChildVisits, mkNode, GTree.visits]

theorem sumChildVisits_updateAt_cons (t : GTree) (i : ℕ) (p : List ℕ) :
    sumChildVisits (updateAt t (i :: p) expandTree) = sumChildVisits t := by
  rw [sumChildVisits, updateAt_children_cons]
  exact sum_map_modAt_eq t.children i _ _ (fun ac => by
    show (updateAt ac.2 p expandTree).visits = ac.2.visits
    exact updateAt_top_visits p ac.2 expandTree expandTree_visits)

theorem length_children_updateAt_cons (t : GTree) (i : ℕ) (p : List ℕ) (f : GTree → GTree) :
    (updateAt t (i :: p) f).children.length = t.children.length := by
  rw [updateAt_children_cons]
  exact modAt_length t.children i _

theorem sumChildVisits_backprop_cons (t : GTree) (i : ℕ) (p : List ℕ) (r : ℚ)
    (acting : ℤ) (hi : i < t.children.length) :
    sumChildVisits (backprop r acting none (i :: p) t) = sumChildVisits t + 1 := by
  rw [sumChildVisits, backprop_children_cons]
  exact sum_map_modAt_bump t.children i _ _ hi (fun ac => by
    show (backprop r acting (some t.state.player) p ac.2).visits = ac.2.visits + 1
    exact backprop_visits _ _ _ _ _)

theorem runPass_fst_expand {σ : Type} (pick : GTree → Option ℕ)
    (sim : ConnectState → σ → ℚ × σ) (acting : ℤ) (t : GTree) (z : σ)
    (sp : List ℕ) (hsp : selectPath pick 42 t = sp)
    (n : GTree) (hn : getNode t sp = some n)
    (hcond : (!n.state.isFinal && !fullyExpanded n) = true) :
    (runPass pick sim acting (t, z)).1 =
      backprop (sim ((getNode (updateAt t sp expandTree)
            (sp ++ [n.children.length])).getD (updateAt t sp expandTree)).state z).1
        acting none (sp ++ [n.children.length]) (updateAt t sp expandTree) := by
  simp only [runPass, hsp, hn, Option.getD_some, hcond, if_true]

theorem runPass_fst_noexpand {σ : Type} (pick : GTree → Option ℕ)
    (sim : ConnectState → σ → ℚ × σ) (acting : ℤ) (t : GTree) (z : σ)
    (sp : List ℕ) (hsp : selectPath pick 42 t = sp)
    (n : GTree) (hn : getNode t sp = some n)
    (hcond : (!n.state.isFinal && !fullyExpanded n) = false) :
    (runPass pick sim acting (t, z)).1 =
      backprop (sim n.state z).1 acting none sp t := by
  simp only [runPass, hsp, hn, Option.getD_some, hcond, if_false, Bool.false_eq_true]

theorem runPass_root_step {σ : Type} (pick : GTree → Option ℕ)
    (sim : ConnectState → σ → ℚ × σ) (acting : ℤ) (s0 : ConnectState)
    (hpick : ∀ u : GTree, WF u → u.children ≠ [] →
      ∃ i, pick u = some i ∧ i < u.children.length)
    (hsim : ∀ s z, 0 ≤ (sim s z).1 ∧ (sim s z).1 ≤ 1)
    (t : GTree) (z : σ) (hst : t.state = s0) (hwf : WF t)
    (hnf : s0.isFinal = false) :
    (runPass pick sim acting (t, z)).1.state = s0 ∧
    WF (runPass pick sim acting (t, z)).1 ∧
    sumChildVisits (runPass pick sim acting (t, z)).1 = sumChildVisits t + 1 := by
  have htf : t.state.isFinal = false := by rw [hst]; exact hnf
  cases hfe : fullyExpanded t with
  | false =>
      have hsp : selectPath pick 42 t = [] :=
        selectPath_stop_any pick 42 t (by rw [htf, hfe]; rfl)
      have hn : getNode t [] = some t := rfl
      have hcond : (!t.state.isFinal && !fullyExpanded t) = true := by
        rw [htf, hfe]; rfl
      have hrun := runPass_fst_expand pick sim acting t z [] hsp t hn hcond
      rw [hrun]
      have ht1 : updateAt t [] expandTree = expandTree t := rfl
      obtain ⟨ha, hrest⟩ := List.exists_cons_of_ne_nil (untried_ne_nil hwf hfe)
      obtain ⟨rest, hu⟩ := hrest
      have hlen1 : (expandTree t).children.length = t.children.length + 1 := by
        rw [expandTree_children_cons t ha rest hu]
        simp
      have hlt : t.children.length < (expandTree t).children.length := by omega
      set r := (sim ((getNode (updateAt t [] expandTree)
        ([] ++ [t.children.length])).getD (updateAt t [] expandTree)).state z).1 with hr
      obtain ⟨hr0, hr1⟩ := hsim _ z
      refine ⟨?_, ?_, ?_⟩
      · rw [backprop_state, ht1, expandTree_state, hst]
      · exact backprop_WF _ none _ r acting hr0 hr1 (by rw [ht1]; exact expandTree_WF hwf)
      · show sumChildVisits (backprop r acting none ([] ++ [t.children.length])
          (updateAt t [] expandTree)) = sumChildVisits t + 1
        rw [ht1, List.nil_append]
        rw [sumChildVisits_backprop_cons (expandTree t) t.children.length [] r acting hlt]
        rw [sumChildVisits_expandTree]
  | true =>
      have hfree : t.state.freeCols ≠ [] :=
        freeCols_ne_nil_of_not_final t.state htf
      have hne : t.children ≠ [] := children_ne_nil_of_full t hfe hfree
      obtain ⟨i, hp, hilt⟩ := hpick t hwf hne
      have hc : t.children[i]? = some t.children[i] := List.getElem?_eq_getElem hilt
      have hcondsel : (t.state.isFinal || !fullyExpanded t) = false := by
        rw [htf, hfe]; rfl
      have hsp : selectPath pick 42 t = i :: selectPath pick 41 (t.children[i]).2 :=
        selectPath_step pick 41 t hcondsel i hp t.children[i] hc
      have hnv : (getNode t (selectPath pick 42 t)).isSome := getNode_selectPath_isSome pick 42 t
      rw [hsp] at hnv
      obtain ⟨n, hn⟩ := Option.isSome_iff_exists.1 hnv
      cases hcond : (!n.state.isFinal && !fullyExpanded n) with
      | true =>
          have hrun := runPass_fst_expand pick sim acting t z _ hsp n hn hcond
          rw [hrun]
          set sp := i :: selectPath pick 41 (t.children[i]).2 with hspdef
          set t1 := updateAt t sp expandTree with ht1def
          have ht1st : t1.state = s0 := by
            rw [ht1def, updateAt_state t sp expandTree expandTree_state, hst]
          have ht1wf : WF t1 :=
            updateAt_WF sp t expandTree (fun u hu => expandTree_WF hu)
              expandTree_state hwf
          have ht1sum : sumChildVisits t1 = sumChildVisits t :=
            sumChildVisits_updateAt_cons t i _
          have ht1len : t1.children.length = t.children.length :=
            length_children_updateAt_cons t i _ expandTree
          set r := (sim ((getNode t1 (sp ++ [n.children.length])).getD t1).state z).1 with hr
          obtain ⟨hr0, hr1⟩ := hsim _ z
          have hconsapp : sp ++ [n.children.length] =
              i :: (selectPath pick 41 (t.children[i]).2 ++ [n.children.length]) := by
            rw [hspdef]; rfl
          refine ⟨?_, ?_, ?_⟩
          · rw [backprop_state, ht1st]
          · exact backprop_WF _ none _ r acting hr0 hr1 ht1wf
          · rw [hconsapp, sumChildVisits_backprop_cons t1 i _ r acting (by omega),
              ht1sum]
      | false =>
          have hrun := runPass_fst_noexpand pick sim acting t z _ hsp n hn hcond
          rw [hrun]
          obtain ⟨hr0, hr1⟩ := hsim n.state z
          refine ⟨?_, ?_, ?_⟩
          · rw [backprop_state, hst]
          · exact backprop_WF _ none _ _ acting hr0 hr1 hwf
          · exact sumChildVisits_backprop_cons t i _ _ acting hilt

theorem runSearch_root_inv {σ : Type} (pick : GTree → Option ℕ)
    (sim : ConnectState → σ → ℚ × σ) (acting : ℤ) (s0 : ConnectState)
    (hpick : ∀ u : GTree, WF u → u.children ≠ [] →
      ∃ i, pick u = some i ∧ i < u.children.length)
    (hsim : ∀ s z, 0 ≤ (sim s z).1 ∧ (sim s z).1 ≤ 1)
    (hnf : s0.isFinal = false) :
    ∀ (B : ℕ) (t : GTree) (z : σ), t.state = s0 → WF t →
    (runSearch pick sim acting B (t, z)).1.state = s0 ∧
    WF (runSearch pick sim acting B (t, z)).1 ∧
    sumChildVisits (runSearch pick sim acting B (t, z)).1 = sumChildVisits t + B
  | 0, t, z => by
      intro hst hwf
      exact ⟨hst, hwf, rfl⟩
  | B + 1, t, z => by
      intro hst hwf
      obtain ⟨h1, h2, h3⟩ :=
        runPass_root_step pick sim acting s0 hpick hsim t z hst hwf hnf
      have hpair : runPass pick sim acting (t, z) =
          ((runPass pick sim acting (t, z)).1, (runPass pick sim acting (t, z)).2) := rfl
      have hstep : runSearch pick sim acting (B + 1) (t, z) =
          runSearch pick sim acting B (runPass pick sim acting (t, z)) := rfl
      rw [hstep, hpair]
      obtain ⟨g1, g2, g3⟩ := runSearch_root_inv pick sim acting s0 hpick hsim hnf B
        (runPass pick sim acting (t, z)).1 (runPass pick sim acting (t, z)).2 h1 h2
      refine ⟨g1, g2, ?_⟩
      rw [g3, h3]
      omega

theorem sumChildVisits_mkNode (s : ConnectState) : sumChildVisits (mkNode s) = 0 := rfl

/-- C3: for every non-terminal input board and every simulation budget, after
the search loop of `act` completes the root children's visit counts sum to
exactly the budget — each selection, expansion, rollout, backpropagation pass
increments exactly one root child's visit count by exactly 1.  Stated for the
search of `Aha.act` (Group A, budget `cfg.numSimulations`) and of `Hello.act`
(Group B, budget `B`, any random stream). -/
theorem search_root_children_visit_sum (b : Board) (cfg : AhaCfg) (B : ℕ)
    (rng : ℕ → ℕ) (hw : 0 ≤ cfg.explorationWeight)
    (hnf : (ConnectState.mk b (actingPlayer b)).isFinal = false) :
    sumChildVisits (ahaSearchTree cfg ⟨b, actingPlayer b⟩ (actingPlayer b)) =
      cfg.numSimulations ∧
    sumChildVisits (helloSearchTree rng ⟨b, actingPlayer b⟩ (actingPlayer b) B) = B := by
  constructor
  · have hrun := runSearch_root_inv (ucbPick cfg.explorationWeight)
      (fun s (_ : Unit) =>
        (simulateA cfg.rolloutDepth cfg.heuristicsEnabled (actingPlayer b) s, ()))
      (actingPlayer b) ⟨b, actingPlayer b⟩
      (fun u hu hne => ucbPick_valid _ hw u hu hne)
      (fun s z => simLoop_bounds (chooserOf cfg.heuristicsEnabled) (actingPlayer b)
        cfg.rolloutDepth s)
      hnf cfg.numSimulations (mkNode ⟨b, actingPlayer b⟩) () rfl (WF_mkNode _)
    have h := hrun.2.2
    rw [sumChildVisits_mkNode] at h
    unfold ahaSearchTree
    omega
  · have hrun := runSearch_root_inv (ucbPick (1.414 : ℝ))
      (fun s k => simLoopR rng (actingPlayer b) 42 s k)
      (actingPlayer b) ⟨b, actingPlayer b⟩
      (fun u hu hne => ucbPick_valid _ (by norm_num) u hu hne)
      (fun s k => simLoopR_bounds rng (actingPlayer b) 42 s k)
      hnf B (mkNode ⟨b, actingPlayer b⟩) 0 rfl (WF_mkNode _)
    have h := hrun.2.2
    rw [sumChildVisits_mkNode] at h
    unfold helloSearchTree
    omega

/-- Witness for C3: the empty board, Group A budget 1, Group B budget 2. -/
theorem search_root_children_visit_sum_witness :
    (0 : ℝ) ≤ ahaCfgW.explorationWeight ∧
    (ConnectState.mk emptyBoard (actingPlayer emptyBoard)).isFinal = false ∧
    (sumChildVisits (ahaSearchTree ahaCfgW ⟨emptyBoard, actingPlayer emptyBoard⟩
        (actingPlayer emptyBoard)) = ahaCfgW.numSimulations ∧
      sumChildVisits (helloSearchTree (fun _ => 0)
        ⟨emptyBoard, actingPlayer emptyBoard⟩ (actingPlayer emptyBoard) 2) = 2) :=
  ⟨zero_le_one, by decide,
    search_root_children_visit_sum emptyBoard ahaCfgW 2 (fun _ => 0)
      zero_le_one (by decide)⟩

theorem bestIdxGo_zero {α : Type} [LinearOrder α] (score : ℕ × GTree → α) :
    ∀ (l : List (ℕ × GTree)) (k : ℕ) (bs : α) (best : Option ℕ) (j : ℕ)
    (hj : j < l.length),
    (l.get ⟨j, hj⟩).2.visits = 0 →
    (∀ m (hm : m < j), (l.get ⟨m, Nat.lt_trans hm hj⟩).2.visits ≠ 0) →
    bestIdxGo score l k bs best = some (k + j)
  | [], k, bs, best, j, hj => by simp at hj
  | c :: rest, k, bs, best, 0, hj => by
      intro h0 _
      have hc : c.2.visits = 0 := h0
      unfold bestIdxGo
      rw [if_pos hc]
      simp
  | c :: rest, k, bs, best, j + 1, hj => by
      intro h0 hfirst
      have hc : c.2.visits ≠ 0 := hfirst 0 (Nat.succ_pos j)
      have hjr : j < rest.length := by simpa using hj
      have hrec : ∀ (bs2 : α) (best2 : Option ℕ),
          bestIdxGo score rest (k + 1) bs2 best2 = some ((k + 1) + j) := by
        intro bs2 best2
        exact bestIdxGo_zero score rest (k + 1) bs2 best2 j hjr h0
          (fun m hm => hfirst (m + 1) (Nat.succ_lt_succ hm))
      unfold bestIdxGo
      rw [if_neg hc]
      have hgoal : (k + 1) + j = k + (j + 1) := by omega
      split
      · rw [hrec, hgoal]
      · rw [hrec, hgoal]

theorem bestIdxGo_max {α : Type} [LinearOrder α] (score : ℕ × GTree → α) :
    ∀ (l : List (ℕ × GTree)) (k : ℕ) (bs : α) (best : Option ℕ),
    (∀ c ∈ l, c.2.visits ≠ 0) →
    ((∃ c ∈ l, bs < score c) →
      ∃ j, ∃ hj : j < l.length, bestIdxGo score l k bs best = some (k + j) ∧
        bs < score (l.get ⟨j, hj⟩) ∧
        (∀ m (hm : m < l.length), score (l.get ⟨m, hm⟩) ≤ score (l.get ⟨j, hj⟩)) ∧
        (∀ m (hm : m < j), score (l.get ⟨m, Nat.lt_trans hm hj⟩) < score (l.get ⟨j, hj⟩))) ∧
    ((∀ c ∈ l, score c ≤ bs) → bestIdxGo score l k bs best = best)
  | [], k, bs, best => by
      intro _
      constructor
      · intro hex
        rcases hex with ⟨c, hc, _⟩
        simp at hc
      · intro _
        rfl
  | c :: rest, k, bs, best => by
      intro hall
      have hc0 : c.2.visits ≠ 0 := hall c (List.mem_cons_self _ _)
      have hallr : ∀ d ∈ rest, d.2.visits ≠ 0 :=
        fun d hd => hall d (List.mem_cons_of_mem _ hd)
      constructor
      · intro hex
        by_cases hbs : bs < score c
        · have hgo : bestIdxGo score (c :: rest) k bs best =
              bestIdxGo score rest (k + 1) (score c) (some k) := by
            unfold bestIdxGo
            rw [if_neg hc0, if_pos hbs]
            cases rest <;> rfl
          by_cases hd : ∃ d ∈ rest, score c < score d
          · obtain ⟨j2, hj2, hgo2, hlt2, hmax2, hstrict2⟩ :=
              (bestIdxGo_max score rest (k + 1) (score c) (some k) hallr).1 hd
            refine ⟨j2 + 1, by simpa using Nat.succ_lt_succ hj2, ?_, ?_, ?_, ?_⟩
            · rw [hgo, hgo2]
              congr 1
              omega
            · show bs < score (rest.get ⟨j2, hj2⟩)
              exact lt_trans hbs hlt2
            · intro m hm
              cases m with
              | zero => exact le_of_lt hlt2
              | succ m2 =>
                  exact hmax2 m2 (by simpa using hm)
            · intro m hm
              cases m with
              | zero => exact hlt2
              | succ m2 =>
                  exact hstrict2 m2 (by simpa using hm)
          · have hle : ∀ d ∈ rest, score d ≤ score c := by
              intro d hdm
              by_contra hcon
              exact hd ⟨d, hdm, lt_of_not_le hcon⟩
            have hgo2 := (bestIdxGo_max score rest (k + 1) (score c) (some k) hallr).2 hle
            refine ⟨0, by simp, ?_, hbs, ?_, ?_⟩
            · rw [hgo, hgo2]
              congr 1
            · intro m hm
              cases m with
              | zero => exact le_rfl
              | succ m2 =>
                  exact hle _ (rest.get_mem _ _)
            · intro m hm
              exact absurd hm (Nat.not_lt_zero m)
        · have hgo : bestIdxGo score (c :: rest) k bs best =
              bestIdxGo score rest (k + 1) bs best := by
            unfold bestIdxGo
            rw [if_neg hc0, if_neg hbs]
            cases rest <;> rfl
          have hexr : ∃ d ∈ rest, bs < score d := by
            rcases hex with ⟨d, hdm, hds⟩
            rcases List.mem_cons.1 hdm with rfl | hdm2
            · exact absurd hds hbs
            · exact ⟨d, hdm2, hds⟩
          obtain ⟨j2, hj2, hgo2, hlt2, hmax2, hstrict2⟩ :=
            (bestIdxGo_max score rest (k + 1) bs best hallr).1 hexr
          have hcle : score c ≤ bs := le_of_not_lt hbs
          refine ⟨j2 + 1, by simpa using Nat.succ_lt_succ hj2, ?_, hlt2, ?_, ?_⟩
          · rw [hgo, hgo2]
            congr 1
            omega
          · intro m hm
            cases m with
            | zero => exact le_of_lt (lt_of_le_of_lt hcle hlt2)
            | succ m2 =>
                exact hmax2 m2 (by simpa using hm)
          · intro m hm
            cases m with
            | zero => exact lt_of_le_of_lt hcle hlt2
            | succ m2 =>
                exact hstrict2 m2 (by simpa using hm)
      · intro hle
        have hbsc : ¬ bs < score c :=
          not_lt.2 (hle c (List.mem_cons_self _ _))
        have hgo : bestIdxGo score (c :: rest) k bs best =
            bestIdxGo score rest (k + 1) bs best := by
          unfold bestIdxGo
          rw [if_neg hc0, if_neg hbsc]
          cases rest <;> rfl
        rw [hgo]
        exact (bestIdxGo_max score rest (k + 1) bs best hallr).2
          (fun d hd => hle d (List.mem_cons_of_mem _ hd))

/-- C4: `best_child` (Group A `MCTS.best_child`) returns the first child in
insertion order with zero visits when one exists; otherwise it returns the
child maximizing `wins/visits + w * sqrt(ln(parent_visits)/child_visits)`, and
on ties the first child encountered in insertion order is kept (every earlier
child scores strictly lower).  Children are indexed in insertion order. -/
theorem best_child_zero_visit_then_ucb1 (t : GTree) (w : ℝ)
    (hne : t.children ≠ []) :
    (∀ j (hj : j < t.children.length),
        (t.children.get ⟨j, hj⟩).2.visits = 0 →
        (∀ m (hm : m < j), (t.children.get ⟨m, Nat.lt_trans hm hj⟩).2.visits ≠ 0) →
        ucbPick w t = some j) ∧
    ((∀ c ∈ t.children, c.2.visits ≠ 0) → 0 ≤ w → (∀ c ∈ t.children, 0 ≤ c.2.wins) →
      ∃ j, ∃ hj : j < t.children.length, ucbPick w t = some j ∧
        (∀ m (hm : m < t.children.length),
          ucbScore w t.visits (t.children.get ⟨m, hm⟩).2 ≤
            ucbScore w t.visits (t.children.get ⟨j, hj⟩).2) ∧
        (∀ m (hm : m < j),
          ucbScore w t.visits (t.children.get ⟨m, Nat.lt_trans hm hj⟩).2 <
            ucbScore w t.visits (t.children.get ⟨j, hj⟩).2)) := by
  constructor
  · intro j hj h0 hfirst
    unfold ucbPick bestIdx
    have := bestIdxGo_zero (fun ac => ucbScore w t.visits ac.2) t.children 0
      (-999999 : ℝ) none j hj h0 hfirst
    rw [this]
    congr 1
    omega
  · intro hall hw hwins
    have hex : ∃ c ∈ t.children, (-999999 : ℝ) < ucbScore w t.visits c.2 := by
      cases hcs : t.children with
      | nil => exact absurd hcs hne
      | cons c rest =>
          refine ⟨c, List.mem_cons_self _ _, ?_⟩
          have hcw : 0 ≤ c.2.wins := hwins c (by rw [hcs]; exact List.mem_cons_self _ _)
          have := ucbScore_nonneg w hw t.visits c.2 hcw
          linarith
    obtain ⟨j, hj, hgo, _, hmax, hstrict⟩ :=
      (bestIdxGo_max (fun ac => ucbScore w t.visits ac.2) t.children 0
        (-999999 : ℝ) none hall).1 hex
    refine ⟨j, hj, ?_, hmax, hstrict⟩
    unfold ucbPick bestIdx
    rw [hgo]
    congr 1
    omega

/-- Witness for C4: a node whose single child is unvisited is returned
immediately. -/
theorem best_child_zero_visit_then_ucb1_witness :
    tW4.children ≠ [] ∧ ucbPick 1 tW4 = some 0 := by
  have hne : tW4.children ≠ [] := by
    show [(0, mkNode (transD sW 0))] ≠ []
    exact List.cons_ne_nil _ _
  refine ⟨hne, ?_⟩
  exact (best_child_zero_visit_then_ucb1 tW4 1 hne).1 0 (by norm_num [tW4, GTree.children])
    rfl (fun m hm => absurd hm (Nat.not_lt_zero m))

theorem simLoop_eq_score_rollout (choose : ConnectState → List ℕ → ℕ) (p : ℤ) :
    ∀ (fuel : ℕ) (s : ConnectState),
    simLoop choose p fuel s = scoreOf p (rolloutState choose fuel s)
  | 0, s => rfl
  | fuel + 1, s => by
      unfold simLoop rolloutState
      by_cases hf : s.isFinal = true
      · rw [if_pos hf, if_pos hf]
      · rw [if_neg hf, if_neg hf]
        cases hc : s.freeCols with
        | nil => rfl
        | cons c cs =>
            cases ht : s.transition (choose s (c :: cs)) with
            | none => rfl
            | some s2 => exact simLoop_eq_score_rollout choose p fuel s2

/-- C8: `_simulate` (Group A) and `simular` (Group C) play rollout moves from a
snapshot of the node's state until the position is terminal or the depth limit
is exhausted, then score the reached state relative to the perspective player
as 1 for a win, 1/2 for a draw or a still-ongoing (depth-exhausted) position,
and 0 for a loss; a failed transition during the rollout (the caught
`ValueError`) halts the rollout early and the score is computed from the last
successfully reached state. -/
theorem simulate_scores_reached_state (depth : ℕ) (heur : Bool) (p : ℤ)
    (s : ConnectState) (choose : ConnectState → List ℕ → ℕ) (fuel : ℕ) :
    (simulateA depth heur p s = scoreOf p (rolloutState (chooserOf heur) depth s) ∧
     simularC depth heur p s = scoreOf p (rolloutState (chooserOf heur) depth s)) ∧
    scoreOf p s = (if s.winner = p then 1 else if s.winner = 0 then 1/2 else 0) ∧
    (s.isFinal = true → rolloutState choose fuel s = s) ∧
    rolloutState choose 0 s = s ∧
    (s.isFinal = false → s.freeCols ≠ [] →
      s.transition (choose s s.freeCols) = none →
      rolloutState choose (fuel + 1) s = s) ∧
    (∀ s2, s.isFinal = false → s.freeCols ≠ [] →
      s.transition (choose s s.freeCols) = some s2 →
      rolloutState choose (fuel + 1) s = rolloutState choose fuel s2) := by
  refine ⟨⟨simLoop_eq_score_rollout _ p depth s, simLoop_eq_score_rollout _ p depth s⟩,
    rfl, ?_, rfl, ?_, ?_⟩
  · intro hf
    cases fuel with
    | zero => rfl
    | succ f =>
        unfold rolloutState
        rw [if_pos hf]
  · intro hf hcne htr
    obtain ⟨c, cs, hcols⟩ := List.exists_cons_of_ne_nil hcne
    unfold rolloutState
    rw [if_neg (by rw [hf]; simp)]
    rw [hcols] at htr ⊢
    simp only [htr]
  · intro s2 hf hcne htr
    obtain ⟨c, cs, hcols⟩ := List.exists_cons_of_ne_nil hcne
    unfold rolloutState
    rw [if_neg (by rw [hf]; simp)]
    rw [hcols] at htr ⊢
    simp only [htr]
    cases fuel <;> rfl

/-- Witness for C8 at concrete inputs: a chooser that insists on the full
column 0 halts the rollout immediately, and the rollout loop scores the
reached state. -/
theorem simulate_scores_reached_state_witness :
    sFull.isFinal = false ∧ sFull.freeCols ≠ [] ∧
    sFull.transition ((fun _ _ => 0) sFull sFull.freeCols) = none ∧
    rolloutState (fun _ _ => 0) 1 sFull = sFull ∧
    simulateA 3 true (-1) sFull = scoreOf (-1) (rolloutState (chooserOf true) 3 sFull) := by
  have h := simulate_scores_reached_state 3 true (-1) sFull (fun _ _ => 0) 0
  exact ⟨by decide, by decide, rfl,
    h.2.2.2.2.1 (by decide) (by decide) rfl, h.1.1⟩

theorem ahaAct_of_check (cfg : AhaCfg) (b : Board) (c : ℕ)
    (h : checkImmediateMoves ⟨b, actingPlayer b⟩ = some c) : ahaAct cfg b = c := by
  unfold ahaAct
  simp only [h]

theorem cAct_of_check (cfg : CCfg) (b : Board) (c : ℕ)
    (h : verificarInmediato ⟨b, actingPlayer b⟩ = some c) : cAct cfg b = c := by
  unfold cAct
  simp only [h]

/-- C1: for a board given to `Aha.act` (Group A) or
`LaMejorPoliticaConQvalues.act` (Group C), if some legal column wins
immediately for the acting player, `act` returns the first such column in the
ascending free-column order, for every search configuration (no search runs);
otherwise, if some legal column would give the opponent an immediate win were
the opponent to move on the current board, `act` returns the first such column,
again for every configuration. -/
theorem aha_c_immediate_shortcircuit (b : Board) (cfgA : AhaCfg) (cfgC : CCfg) (c : ℕ) :
    (ConnectState.mk b (actingPlayer b)).freeCols.Sorted (· < ·) ∧
    ((ConnectState.mk b (actingPlayer b)).freeCols.find?
        (fun a => (transD (ConnectState.mk b (actingPlayer b)) a).winner ==
          (ConnectState.mk b (actingPlayer b)).player) = some c →
      ahaAct cfgA b = c ∧ cAct cfgC b = c) ∧
    ((ConnectState.mk b (actingPlayer b)).freeCols.find?
        (fun a => (transD (ConnectState.mk b (actingPlayer b)) a).winner ==
          (ConnectState.mk b (actingPlayer b)).player) = none →
     (ConnectState.mk b (actingPlayer b)).freeCols.find?
        (fun a => (transD ⟨b, -(ConnectState.mk b (actingPlayer b)).player⟩ a).winner ==
          -(ConnectState.mk b (actingPlayer b)).player) = some c →
      ahaAct cfgA b = c ∧ cAct cfgC b = c) := by
  refine ⟨freeCols_sorted b, ?_, ?_⟩
  · intro h
    have hcheck : checkImmediateMoves ⟨b, actingPlayer b⟩ = some c := by
      unfold checkImmediateMoves
      rw [h]
    have hver : verificarInmediato ⟨b, actingPlayer b⟩ = some c := by
      unfold verificarInmediato
      rw [h]
    exact ⟨ahaAct_of_check cfgA b c hcheck, cAct_of_check cfgC b c hver⟩
  · intro h1 h2
    have hcheck : checkImmediateMoves ⟨b, actingPlayer b⟩ = some c := by
      unfold checkImmediateMoves
      rw [h1]
      exact h2
    have hver : verificarInmediato ⟨b, actingPlayer b⟩ = some c := by
      unfold verificarInmediato
      rw [h1]
      exact h2
    exact ⟨ahaAct_of_check cfgA b c hcheck, cAct_of_check cfgC b c hver⟩

/-- Witness for C1: a board where the acting player -1 completes a vertical
four by playing column 0, which both policies return at once. -/
theorem aha_c_immediate_shortcircuit_witness :
    ((ConnectState.mk bWin (actingPlayer bWin)).freeCols.find?
        (fun a => (transD (ConnectState.mk bWin (actingPlayer bWin)) a).winner ==
          (ConnectState.mk bWin (actingPlayer bWin)).player) = some 0) ∧
    (ahaAct ahaCfgW bWin = 0 ∧ cAct cCfgW bWin = 0) :=
  ⟨by decide, (aha_c_immediate_shortcircuit bWin ahaCfgW cCfgW 0).2.1 (by decide)⟩

theorem checkImmediate_mem (s : ConnectState) (c : ℕ)
    (h : checkImmediateMoves s = some c) : c ∈ s.freeCols := by
  unfold checkImmediateMoves at h
  cases hf : s.freeCols.find? (fun a => (transD s a).winner == s.player) with
  | some a =>
      rw [hf] at h
      have : a = c := by simpa using h
      subst this
      exact List.mem_of_find?_eq_some hf
  | none =>
      rw [hf] at h
      exact List.mem_of_find?_eq_some h

theorem verificarInmediato_mem (s : ConnectState) (c : ℕ)
    (h : verificarInmediato s = some c) : c ∈ s.freeCols := by
  unfold verificarInmediato at h
  cases hf : s.freeCols.find? (fun a => (transD s a).winner == s.player) with
  | some a =>
      rw [hf] at h
      have : a = c := by simpa using h
      subst this
      exact List.mem_of_find?_eq_some hf
  | none =>
      rw [hf] at h
      exact List.mem_of_find?_eq_some h

theorem argmaxVisitsGo_mem : ∀ (l : List (ℕ × GTree)) (best : Option ℕ) (mv : ℤ) (a : ℕ),
    argmaxVisitsGo l best mv = some a → a ∈ l.map Prod.fst ∨ best = some a
  | [], best, mv, a => by
      intro h
      exact Or.inr h
  | c :: rest, best, mv, a => by
      intro h
      unfold argmaxVisitsGo at h
      split at h
      · rcases argmaxVisitsGo_mem rest (some c.1) _ a h with hm | hb
        · exact Or.inl (List.mem_cons_of_mem _ hm)
        · left
          simp only [Option.some.injEq] at hb
          rw [← hb]
          exact List.mem_cons_self _ _
      · rcases argmaxVisitsGo_mem rest best mv a h with hm | hb
        · exact Or.inl (List.mem_cons_of_mem _ hm)
        · exact Or.inr hb

theorem argmaxVisits_mem (cs : List (ℕ × GTree)) (a : ℕ)
    (h : argmaxVisits cs = some a) : a ∈ cs.map Prod.fst := by
  rcases argmaxVisitsGo_mem cs none (-1) a h with hm | hb
  · exact hm
  · simp at hb

theorem headD_mem {l : List ℕ} (h : l ≠ []) : l.headD 0 ∈ l := by
  cases l with
  | nil => exact absurd rfl h
  | cons x xs => exact List.mem_cons_self _ _

theorem elegirConQtableGo_mem (qt : List (String × ℚ)) (s : ConnectState) :
    ∀ (l : List ℕ) (best : ℕ) (bq : Option ℚ),
    elegirConQtableGo qt s l best bq ∈ l ∨ elegirConQtableGo qt s l best bq = best
  | [], best, bq => Or.inr rfl
  | c :: rest, best, bq => by
      cases bq with
      | none =>
          have heq : elegirConQtableGo qt s (c :: rest) best none =
              elegirConQtableGo qt s rest c
                (some (qtLookup qt (codificarEstadoAccion s.board s.player c))) := rfl
          rw [heq]
          rcases elegirConQtableGo_mem qt s rest c
            (some (qtLookup qt (codificarEstadoAccion s.board s.player c))) with hm | hb
          · exact Or.inl (List.mem_cons_of_mem _ hm)
          · rw [hb]
            exact Or.inl (List.mem_cons_self _ _)
      | some q0 =>
          by_cases hlt : q0 < qtLookup qt (codificarEstadoAccion s.board s.player c)
          · have heq : elegirConQtableGo qt s (c :: rest) best (some q0) =
                elegirConQtableGo qt s rest c
                  (some (qtLookup qt (codificarEstadoAccion s.board s.player c))) := by
              show (if q0 < qtLookup qt (codificarEstadoAccion s.board s.player c)
                then elegirConQtableGo qt s rest c
                  (some (qtLookup qt (codificarEstadoAccion s.board s.player c)))
                else elegirConQtableGo qt s rest best (some q0)) = _
              rw [if_pos hlt]
            rw [heq]
            rcases elegirConQtableGo_mem qt s rest c
              (some (qtLookup qt (codificarEstadoAccion s.board s.player c))) with hm | hb
            · exact Or.inl (List.mem_cons_of_mem _ hm)
            · rw [hb]
              exact Or.inl (List.mem_cons_self _ _)
          · have heq : elegirConQtableGo qt s (c :: rest) best (some q0) =
                elegirConQtableGo qt s rest best (some q0) := by
              show (if q0 < qtLookup qt (codificarEstadoAccion s.board s.player c)
                then elegirConQtableGo qt s rest c
                  (some (qtLookup qt (codificarEstadoAccion s.board s.player c)))
                else elegirConQtableGo qt s rest best (some q0)) = _
              rw [if_neg hlt]
            rw [heq]
            rcases elegirConQtableGo_mem qt s rest best (some q0) with hm | hb
            · exact Or.inl (List.mem_cons_of_mem _ hm)
            · exact Or.inr hb

theorem elegirConQtable_mem (qt : List (String × ℚ)) (s : ConnectState)
    (h : s.freeCols ≠ []) : elegirConQtable qt s ∈ s.freeCols := by
  unfold elegirConQtable
  rcases elegirConQtableGo_mem qt s s.freeCols (s.freeCols.headD 0) none with hm | hb
  · exact hm
  · rw [hb]
    exact headD_mem h

theorem runPass_WF_any {σ : Type} (pick : GTree → Option ℕ)
    (sim : ConnectState → σ → ℚ × σ) (acting : ℤ)
    (hsim : ∀ s z, 0 ≤ (sim s z).1 ∧ (sim s z).1 ≤ 1)
    (t : GTree) (z : σ) (hwf : WF t) :
    (runPass pick sim acting (t, z)).1.state = t.state ∧
    WF (runPass pick sim acting (t, z)).1 := by
  have hnv : (getNode t (selectPath pick 42 t)).isSome := getNode_selectPath_isSome pick 42 t
  obtain ⟨n, hn⟩ := Option.isSome_iff_exists.1 hnv
  cases hcond : (!n.state.isFinal && !fullyExpanded n) with
  | true =>
      have hrun := runPass_fst_expand pick sim acting t z _ rfl n hn hcond
      rw [hrun]
      obtain ⟨hr0, hr1⟩ := hsim _ z
      constructor
      · rw [backprop_state, updateAt_state t _ expandTree expandTree_state]
      · exact backprop_WF _ none _ _ acting hr0 hr1
          (updateAt_WF _ t expandTree (fun u hu => expandTree_WF hu) expandTree_state hwf)
  | false =>
      have hrun := runPass_fst_noexpand pick sim acting t z _ rfl n hn hcond
      rw [hrun]
      obtain ⟨hr0, hr1⟩ := hsim n.state z
      exact ⟨backprop_state _ _ _ _ _, backprop_WF _ none _ _ acting hr0 hr1 hwf⟩

theorem runSearch_WF_any {σ : Type} (pick : GTree → Option ℕ)
    (sim : ConnectState → σ → ℚ × σ) (acting : ℤ)
    (hsim : ∀ s z, 0 ≤ (sim s z).1 ∧ (sim s z).1 ≤ 1) :
    ∀ (B : ℕ) (t : GTree) (z : σ), WF t →
    (runSearch pick sim acting B (t, z)).1.state = t.state ∧
    WF (runSearch pick sim acting B (t, z)).1
  | 0, t, z => fun hwf => ⟨rfl, hwf⟩
  | B + 1, t, z => by
      intro hwf
      obtain ⟨h1, h2⟩ := runPass_WF_any pick sim acting hsim t z hwf
      have hstep : runSearch pick sim acting (B + 1) (t, z) =
          runSearch pick sim acting B
            ((runPass pick sim acting (t, z)).1, (runPass pick sim acting (t, z)).2) := rfl
      rw [hstep]
      obtain ⟨g1, g2⟩ := runSearch_WF_any pick sim acting hsim B
        (runPass pick sim acting (t, z)).1 (runPass pick sim acting (t, z)).2 h2
      exact ⟨by rw [g1, h1], g2⟩

theorem ahaAct_mem (cfg : AhaCfg) (b : Board) (hfc : boardFreeCols b ≠ []) :
    ahaAct cfg b ∈ boardFreeCols b := by
  unfold ahaAct
  cases hchk : checkImmediateMoves ⟨b, actingPlayer b⟩ with
  | some c =>
      simp only [hchk]
      exact checkImmediate_mem _ c hchk
  | none =>
      simp only [hchk]
      obtain ⟨hst, hwf⟩ := runSearch_WF_any (ucbPick cfg.explorationWeight)
        (fun s (_ : Unit) =>
          (simulateA cfg.rolloutDepth cfg.heuristicsEnabled (actingPlayer b) s, ()))
        (actingPlayer b)
        (fun s z => simLoop_bounds (chooserOf cfg.heuristicsEnabled) (actingPlayer b)
          cfg.rolloutDepth s)
        cfg.numSimulations (mkNode ⟨b, actingPlayer b⟩) () (WF_mkNode _)
      cases hmx : argmaxVisits
          (ahaSearchTree cfg ⟨b, actingPlayer b⟩ (actingPlayer b)).children with
      | some a =>
          simp only [hmx]
          have hmem := argmaxVisits_mem _ a hmx
          have hsub := (WF_elim hwf).2.2.1
          have := hsub a hmem
          rwa [hst] at this
      | none =>
          simp only [hmx]
          exact headD_mem hfc

theorem cAct_mem (cfg : CCfg) (b : Board) (hfc : boardFreeCols b ≠ []) :
    cAct cfg b ∈ boardFreeCols b := by
  unfold cAct
  cases hchk : verificarInmediato ⟨b, actingPlayer b⟩ with
  | some c =>
      simp only [hchk]
      exact verificarInmediato_mem _ c hchk
  | none =>
      simp only [hchk]
      by_cases hif : cfg.usarQtable ∧ (99 : ℚ)/100 ≤ cfg.pesoQ ∧ cfg.qtable ≠ []
      · rw [if_pos hif]
        exact elegirConQtable_mem cfg.qtable ⟨b, actingPlayer b⟩ hfc
      · rw [if_neg hif]
        obtain ⟨hst, hwf⟩ := runSearch_WF_any
          (cPick cfg.exploracion cfg.pesoQ cfg.qtable)
          (fun s (_ : Unit) =>
            (simularC cfg.profundidad cfg.heuristicas (actingPlayer b) s, ()))
          (actingPlayer b)
          (fun s z => simLoop_bounds (chooserOf cfg.heuristicas) (actingPlayer b)
            cfg.profundidad s)
          cfg.simulaciones (mkNode ⟨b, actingPlayer b⟩) () (WF_mkNode _)
        cases hmx : argmaxVisits
            (cSearchTree cfg ⟨b, actingPlayer b⟩ (actingPlayer b)).children with
        | some a =>
            simp only [hmx]
            have hmem := argmaxVisits_mem _ a hmx
            have hsub := (WF_elim hwf).2.2.1
            have := hsub a hmem
            rwa [hst] at this
        | none =>
            simp only [hmx]
            exact headD_mem hfc

/-- C6: for every board with at least one free column, the column returned by
`act` (Group A `Aha.act` and Group C `LaMejorPoliticaConQvalues.act`) is a
member of the board's free columns, through every path: the immediate-move
short-circuit, the Q-table bypass, the most-visited root child and the
no-children fallback. -/
theorem act_returns_legal_column (b : Board) (cfgA : AhaCfg) (cfgC : CCfg)
    (hfc : boardFreeCols b ≠ []) :
    ahaAct cfgA b ∈ boardFreeCols b ∧ cAct cfgC b ∈ boardFreeCols b :=
  ⟨ahaAct_mem cfgA b hfc, cAct_mem cfgC b hfc⟩

/-- Witness for C6: the empty board. -/
theorem act_returns_legal_column_witness :
    boardFreeCols emptyBoard ≠ [] ∧
    (ahaAct ahaCfgW emptyBoard ∈ boardFreeCols emptyBoard ∧
      cAct cCfgW emptyBoard ∈ boardFreeCols emptyBoard) :=
  ⟨by decide, act_returns_legal_column emptyBoard ahaCfgW cCfgW (by decide)⟩

/-- C7: with heuristic rollouts enabled and a fixed configuration (budget,
exploration weight, rollout depth), two calls of `Aha.act` on identical boards
return the identical chosen action.  The embedded pipeline — player-parity
determination, short-circuit checks, expansion order, heuristic and fast
rollout selection, tie-breaking — is a pure function of the configuration and
the board; the Group A source invokes no random source (`np.random` is used
only by Group B's rollout), so no random stream appears in its embedding. -/
theorem aha_act_deterministic (n d : ℕ) (w : ℝ) (b1 b2 : Board) (h : b1 = b2) :
    ahaAct ⟨n, w, d, true⟩ b1 = ahaAct ⟨n, w, d, true⟩ b2 := by rw [h]

/-- Witness for C7: two calls on the empty board. -/
theorem aha_act_deterministic_witness :
    emptyBoard = emptyBoard ∧
    ahaAct ⟨1, 1, 1, true⟩ emptyBoard = ahaAct ⟨1, 1, 1, true⟩ emptyBoard :=
  ⟨rfl, aha_act_deterministic 1 1 1 emptyBoard emptyBoard rfl⟩

theorem helloSearchTree_eq (rng : ℕ → ℕ) (st : ConnectState) (p : ℤ) (B : ℕ) :
    helloSearchTree rng st p B =
      (runSearch (ucbPick (1.414 : ℝ)) (fun s k => simLoopR rng p 42 s k) p B
        (mkNode st, 0)).1 := rfl

theorem helloActB_spec (rng : ℕ → ℕ) (b : Board) (B : ℕ)
    (hnf : (ConnectState.mk b (actingPlayer b)).isFinal = false) :
    sumChildVisits (helloSearchTree rng ⟨b, actingPlayer b⟩ (actingPlayer b) B) = B ∧
    helloActB rng b B = (match argmaxVisits (helloSearchTree rng ⟨b, actingPlayer b⟩
        (actingPlayer b) B).children with
      | some a => a
      | none => (ConnectState.mk b (actingPlayer b)).freeCols.headD 0) ∧
    helloActB rng b B ∈ boardFreeCols b := by
  have hfc : boardFreeCols b ≠ [] :=
    freeCols_ne_nil_of_not_final ⟨b, actingPlayer b⟩ hnf
  have hsum : sumChildVisits (helloSearchTree rng ⟨b, actingPlayer b⟩
      (actingPlayer b) B) = B := by
    have hrun := runSearch_root_inv (ucbPick (1.414 : ℝ))
      (fun s k => simLoopR rng (actingPlayer b) 42 s k)
      (actingPlayer b) ⟨b, actingPlayer b⟩
      (fun u hu hne => ucbPick_valid _ (by norm_num) u hu hne)
      (fun s k => simLoopR_bounds rng (actingPlayer b) 42 s k)
      hnf B (mkNode ⟨b, actingPlayer b⟩) 0 rfl (WF_mkNode _)
    have h := hrun.2.2
    rw [sumChildVisits_mkNode] at h
    rw [helloSearchTree_eq, h]
    omega
  obtain ⟨hst, hwf⟩ := runSearch_WF_any (ucbPick (1.414 : ℝ))
    (fun s k => simLoopR rng (actingPlayer b) 42 s k) (actingPlayer b)
    (fun s k => simLoopR_bounds rng (actingPlayer b) 42 s k)
    B (mkNode ⟨b, actingPlayer b⟩) 0 (WF_mkNode _)
  rw [← helloSearchTree_eq] at hst hwf
  cases hmx : argmaxVisits (helloSearchTree rng ⟨b, actingPlayer b⟩
      (actingPlayer b) B).children with
  | some a =>
      refine ⟨hsum, ?_, ?_⟩
      · unfold helloActB
        simp only [hmx]
      · unfold helloActB
        simp only [hmx]
        have hmem := argmaxVisits_mem _ a hmx
        have := (WF_elim hwf).2.2.1 a hmem
        rwa [hst] at this
  | none =>
      refine ⟨hsum, ?_, ?_⟩
      · unfold helloActB
        simp only [hmx]
      · unfold helloActB
        simp only [hmx]
        exact headD_mem hfc

/-- C10: Group B `Hello.act` performs no immediate-win or block short-circuit
and no value-table bypass: on every non-terminal board it runs its full fixed
budget of 2000 uniform-random-rollout simulations — after the loop the root
children's visit counts sum to exactly 2000, for every random stream — and it
returns the most-visited root child's action, falling back to the first legal
column only when the root acquired no children; the result is always a free
column. -/
theorem hello_full_budget_most_visited (rng : ℕ → ℕ) (b : Board)
    (hnf : (ConnectState.mk b (actingPlayer b)).isFinal = false) :
    sumChildVisits (helloSearchTree rng ⟨b, actingPlayer b⟩ (actingPlayer b) 2000) = 2000 ∧
    helloAct rng b = (match argmaxVisits (helloSearchTree rng ⟨b, actingPlayer b⟩
        (actingPlayer b) 2000).children with
      | some a => a
      | none => (ConnectState.mk b (actingPlayer b)).freeCols.headD 0) ∧
    helloAct rng b ∈ boardFreeCols b := by
  have hwrap : helloAct rng b = helloActB rng b 2000 := rfl
  obtain ⟨h1, h2, h3⟩ := helloActB_spec rng b 2000 hnf
  exact ⟨h1, by rw [hwrap]; exact h2, by rw [hwrap]; exact h3⟩

/-- Witness for C10: the empty board. -/
theorem hello_full_budget_most_visited_witness :
    (ConnectState.mk emptyBoard (actingPlayer emptyBoard)).isFinal = false ∧
    (sumChildVisits (helloSearchTree (fun _ => 0)
        ⟨emptyBoard, actingPlayer emptyBoard⟩ (actingPlayer emptyBoard) 2000) = 2000 ∧
      helloAct (fun _ => 0) emptyBoard =
        (match argmaxVisits (helloSearchTree (fun _ => 0)
            ⟨emptyBoard, actingPlayer emptyBoard⟩ (actingPlayer emptyBoard) 2000).children with
          | some a => a
          | none => (ConnectState.mk emptyBoard
              (actingPlayer emptyBoard)).freeCols.headD 0) ∧
      helloAct (fun _ => 0) emptyBoard ∈ boardFreeCols emptyBoard) :=
  ⟨by decide, hello_full_budget_most_visited (fun _ => 0) emptyBoard (by decide)⟩
